import Mathlib

set_option maxRecDepth 2000

/-!
Verification of the flowfish content-addressed dataflow engine.

This file embeds the parts of the flowfish source that the checked
properties depend on:

* `flowfish/conf.py` — the rewrite pipeline (`RewriteHashConf`,
  `RewriteArgsConf`, `StopRewriteObjects`);
* `flowfish/node.py` — node setup (hash assignment, link-loop detection,
  base-chain resolution) and per-node call wrapping;
* `flowfish/func.py` — argument splitting and the missing-argument check;
* `flowfish/graph.py` — the link graph;
* `flowfish/utils.py` — `hash32`, `copy_file`, `readlines`, `writelines`.

Python values are embedded as the inductive `JVal`; Python dicts are
association lists in insertion order (keys are unique in Python, which is
carried as an explicit `nodupKeys` hypothesis where it matters).  Machine
arithmetic (MurmurHash3) is carried out on `Nat` with explicit reduction
modulo `2^32`.  Errors are values of `PyErr`/`Except`.
-/

/-! ## Python string comparison

Python compares strings lexicographically by Unicode code point; this is
the order used by `sorted(d.items(), key=lambda i: i[0])` in
`sorted_dict` (utils.py) and by `json.dumps(..., sort_keys=True)`.
-/

/-- Lexicographic comparison of character lists by code point, with the
shorter list first on ties (Python `<=` on `str`). -/
def charsLe : List Char → List Char → Bool
  | [], _ => true
  | _ :: _, [] => false
  | a :: as, b :: bs =>
    if a.toNat < b.toNat then true
    else if b.toNat < a.toNat then false
    else charsLe as bs

/-- Python `<=` on strings. -/
def strLe (a b : String) : Bool := charsLe a.data b.data

theorem char_toNat_inj {a b : Char} (h : a.toNat = b.toNat) : a = b := by
  apply Char.eq_of_val_eq
  simp [Char.toNat] at h
  exact UInt32.toNat.inj h

theorem charsLe_total : ∀ a b, charsLe a b = true ∨ charsLe b a = true
  | [], _ => Or.inl rfl
  | _ :: _, [] => Or.inr rfl
  | a :: as, b :: bs => by
    by_cases hab : a.toNat < b.toNat
    · exact Or.inl (by simp [charsLe, hab])
    · by_cases hba : b.toNat < a.toNat
      · exact Or.inr (by simp [charsLe, hba])
      · rcases charsLe_total as bs with h | h
        · exact Or.inl (by simp [charsLe, hab, hba, h])
        · exact Or.inr (by simp [charsLe, hab, hba, h])

theorem charsLe_antisymm : ∀ a b, charsLe a b = true → charsLe b a = true → a = b
  | [], [], _, _ => rfl
  | [], _ :: _, _, h => by simp [charsLe] at h
  | _ :: _, [], h, _ => by simp [charsLe] at h
  | a :: as, b :: bs, h₁, h₂ => by
    by_cases hab : a.toNat < b.toNat
    · simp only [charsLe, if_neg (Nat.lt_asymm hab), if_pos hab] at h₂
      exact absurd h₂ (by simp)
    · by_cases hba : b.toNat < a.toNat
      · simp only [charsLe, if_neg hab, if_pos hba] at h₁
        exact absurd h₁ (by simp)
      · have hkey : a = b := char_toNat_inj (Nat.le_antisymm (Nat.le_of_not_lt hba) (Nat.le_of_not_lt hab))
        simp only [charsLe, if_neg hab, if_neg hba] at h₁ h₂
        have := charsLe_antisymm as bs h₁ h₂
        rw [hkey, this]

theorem charsLe_trans : ∀ a b c, charsLe a b = true → charsLe b c = true → charsLe a c = true
  | [], _, _, _, _ => rfl
  | _ :: _, [], _, h, _ => by simp [charsLe] at h
  | _ :: _, _ :: _, [], _, h => by simp [charsLe] at h
  | a :: as, b :: bs, c :: cs, h₁, h₂ => by
    by_cases hab : a.toNat < b.toNat <;> by_cases hbc : b.toNat < c.toNat
    · simp [charsLe, Nat.lt_trans hab hbc]
    · by_cases hcb : c.toNat < b.toNat
      · simp [charsLe, hbc, hcb] at h₂
      · have : b.toNat = c.toNat := by omega
        simp [charsLe, this ▸ hab]
    · by_cases hba : b.toNat < a.toNat
      · simp [charsLe, hab, hba] at h₁
      · have : a.toNat = b.toNat := by omega
        simp [charsLe, this ▸ hbc]
    · by_cases hba : b.toNat < a.toNat
      · simp [charsLe, hab, hba] at h₁
      · by_cases hcb : c.toNat < b.toNat
        · simp [charsLe, hbc, hcb] at h₂
        · have hac : ¬ a.toNat < c.toNat ∧ ¬ c.toNat < a.toNat := by omega
          simp only [charsLe, if_neg hab, if_neg hba] at h₁
          simp only [charsLe, if_neg hbc, if_neg hcb] at h₂
          simp only [charsLe, if_neg hac.1, if_neg hac.2]
          exact charsLe_trans as bs cs h₁ h₂

theorem strLe_total (a b : String) : strLe a b = true ∨ strLe b a = true :=
  charsLe_total a.data b.data

theorem strLe_antisymm {a b : String} (h₁ : strLe a b = true) (h₂ : strLe b a = true) : a = b := by
  cases a; cases b
  exact congrArg String.mk (charsLe_antisymm _ _ h₁ h₂)

theorem strLe_trans {a b c : String} (h₁ : strLe a b = true) (h₂ : strLe b c = true) :
    strLe a c = true :=
  charsLe_trans a.data b.data c.data h₁ h₂

/-- Python `str.startswith` (on the character lists). -/
def charsStarts : List Char → List Char → Bool
  | _, [] => true
  | [], _ :: _ => false
  | c :: cs, p :: ps => c == p && charsStarts cs ps

/-- Python `k.startswith(p)`. -/
def strStarts (s p : String) : Bool := charsStarts s.data p.data

/-! ## Stable sorting of dict items by key

`sorted_dict` (utils.py:80) sorts dict items with `key=lambda i: i[0]`;
`json.dumps(..., sort_keys=True)` sorts items as well.  Python's `sorted`
is a stable sort, so it is modelled by insertion sort.
-/

/-- Order on dict items: compare keys only (`key=lambda i: i[0]`). -/
def keyLe {α : Type} (a b : String × α) : Prop := strLe a.1 b.1 = true

instance {α : Type} : DecidableRel (@keyLe α) := fun a b => by
  unfold keyLe; infer_instance

instance {α : Type} : IsTotal (String × α) keyLe where
  total a b := strLe_total a.1 b.1

instance {α : Type} : IsTrans (String × α) keyLe where
  trans _ _ _ := strLe_trans

/-- Strict version of `keyLe`; antisymmetric, which `keyLe` is not. -/
def keyLt {α : Type} (a b : String × α) : Prop := keyLe a b ∧ a.1 ≠ b.1

instance {α : Type} : IsAntisymm (String × α) keyLt where
  antisymm a b h₁ h₂ := absurd (strLe_antisymm h₁.1 h₂.1) h₁.2

/-- Python's stable sort of dict items by key. -/
def sortPairs {α : Type} (l : List (String × α)) : List (String × α) :=
  l.insertionSort keyLe

theorem sortPairs_perm {α : Type} (l : List (String × α)) : (sortPairs l).Perm l :=
  List.perm_insertionSort keyLe l

theorem sortPairs_sorted {α : Type} (l : List (String × α)) :
    (sortPairs l).Sorted keyLe :=
  List.sorted_insertionSort keyLe l

/-- Keys of an association list. -/
def listKeys {α : Type} (l : List (String × α)) : List String := l.map Prod.fst

/-- No duplicate keys — the invariant of a Python dict. -/
def nodupKeys {α : Type} (l : List (String × α)) : Prop := (listKeys l).Nodup

theorem nodupKeys_pairwise {α : Type} {l : List (String × α)} (h : nodupKeys l) :
    l.Pairwise (fun a b => a.1 ≠ b.1) := by
  unfold nodupKeys listKeys at h
  rw [List.Nodup, List.pairwise_map] at h
  exact h

theorem nodupKeys_of_perm {α : Type} {l l' : List (String × α)} (p : l.Perm l')
    (h : nodupKeys l) : nodupKeys l' :=
  (p.map Prod.fst).nodup_iff.mp h

/-- Two lists with the same item multiset and no duplicate keys sort to the
same result: the sorted order is fully determined. -/
theorem sortPairs_eq_of_perm {α : Type} {l l' : List (String × α)} (p : l.Perm l')
    (h : nodupKeys l) : sortPairs l = sortPairs l' := by
  have ps : (sortPairs l).Perm (sortPairs l') :=
    ((sortPairs_perm l).trans p).trans (sortPairs_perm l').symm
  have hs : nodupKeys (sortPairs l) := nodupKeys_of_perm (sortPairs_perm l).symm h
  have hs' : nodupKeys (sortPairs l') :=
    nodupKeys_of_perm (sortPairs_perm l').symm (nodupKeys_of_perm p h)
  have sortedLt : ∀ (m : List (String × α)), m.Sorted keyLe → nodupKeys m →
      m.Sorted keyLt := by
    intro m hm hn
    exact List.Pairwise.and hm (nodupKeys_pairwise hn)
  exact List.eq_of_perm_of_sorted ps
    (sortedLt _ (sortPairs_sorted l) hs) (sortedLt _ (sortPairs_sorted l') hs')

/-- `orderedInsert` preserves a key-respecting pointwise relation. -/
theorem orderedInsert_forall₂ {α β : Type} {R : (String × α) → (String × β) → Prop}
    (hkey : ∀ a b, R a b → a.1 = b.1) :
    ∀ {l : List (String × α)} {l' : List (String × β)} {a b},
      R a b → List.Forall₂ R l l' →
      List.Forall₂ R (l.orderedInsert keyLe a) (l'.orderedInsert keyLe b)
  | [], [], a, b, hab, _ => by
    simpa [List.orderedInsert] using List.Forall₂.cons hab List.Forall₂.nil
  | x :: l, y :: l', a, b, hab, h => by
    rcases h with _ | ⟨hxy, hl⟩
    have hk : a.1 = b.1 := hkey _ _ hab
    have hk' : x.1 = y.1 := hkey _ _ hxy
    by_cases hle : keyLe a x
    · rw [List.orderedInsert, List.orderedInsert, if_pos hle,
        if_pos (show keyLe b y by rw [keyLe, ← hk, ← hk']; exact hle)]
      exact List.Forall₂.cons hab (List.Forall₂.cons hxy hl)
    · rw [List.orderedInsert, List.orderedInsert, if_neg hle,
        if_neg (show ¬ keyLe b y by rw [keyLe, ← hk, ← hk']; exact hle)]
      exact List.Forall₂.cons hxy (orderedInsert_forall₂ hkey hab hl)

/-- Sorting preserves a key-respecting pointwise relation: entries of two
keywise-aligned lists end up aligned after sorting. -/
theorem sortPairs_forall₂ {α β : Type} {R : (String × α) → (String × β) → Prop}
    (hkey : ∀ a b, R a b → a.1 = b.1) :
    ∀ {l : List (String × α)} {l' : List (String × β)}, List.Forall₂ R l l' →
      List.Forall₂ R (sortPairs l) (sortPairs l')
  | [], [], _ => by simpa [sortPairs] using List.Forall₂.nil
  | x :: l, y :: l', h => by
    rcases h with _ | ⟨hxy, hl⟩
    simpa [sortPairs, List.insertionSort] using
      orderedInsert_forall₂ hkey hxy (sortPairs_forall₂ hkey hl)

/-! ## The value model

A Python configuration value as seen by the rewrite pipeline
(`flowfish/conf.py`).  Mappings are association lists in insertion order.
`jlink` carries the data of a `Link` object (link.py) that the rewrites
inspect: its kind (`@`/`&`), whether it is a self reference, the source
node's slug, the suffix (`Link.value`), the canonical rendering
(`str(link)`, whose construction walks flow/scope structure not modelled
here) and the hash-fallback string (`hash32(cloudpickle.dumps(link))` or
`fake_hash(link)`).  `jobj` is any other foreign object, carried as its
hash-fallback string.  Floats are not modelled (no checked property
involves them).
-/

inductive JVal where
  | jnull : JVal
  | jbool (b : Bool) : JVal
  | jint (n : Int) : JVal
  | jstr (s : String) : JVal
  | jlist (l : List JVal) : JVal
  | jdict (entries : List (String × JVal)) : JVal
  | jlink (kind : String) (isSelf : Bool) (slug : String) (sfx : String)
      (rendered : String) (objHash : String) : JVal
  | jobj (objHash : String) : JVal

mutual

/-- Structural equality of values (Python `==` on JSON-like trees; the
Python quirk `True == 1` is not modelled). -/
def jveq : JVal → JVal → Bool
  | .jnull, .jnull => true
  | .jbool a, .jbool b => a == b
  | .jint n, .jint m => n == m
  | .jstr s, .jstr t => s == t
  | .jlist l, .jlist m => jveqL l m
  | .jdict d, .jdict e => jveqD d e
  | .jlink k₁ s₁ g₁ v₁ r₁ o₁, .jlink k₂ s₂ g₂ v₂ r₂ o₂ =>
      k₁ == k₂ && s₁ == s₂ && g₁ == g₂ && v₁ == v₂ && r₁ == r₂ && o₁ == o₂
  | .jobj a, .jobj b => a == b
  | _, _ => false

def jveqL : List JVal → List JVal → Bool
  | [], [] => true
  | v :: l, w :: m => jveq v w && jveqL l m
  | _, _ => false

def jveqD : List (String × JVal) → List (String × JVal) → Bool
  | [], [] => true
  | (k, v) :: d, (k', w) :: e => k == k' && jveq v w && jveqD d e
  | _, _ => false

end

mutual

theorem jveq_iff : ∀ v w, jveq v w = true ↔ v = w
  | .jnull, w => by cases w <;> simp [jveq]
  | .jbool _, w => by cases w <;> simp [jveq]
  | .jint _, w => by cases w <;> simp [jveq]
  | .jstr _, w => by cases w <;> simp [jveq]
  | .jlist l, w => by
      cases w
      case jlist m => simp only [jveq]; rw [jveqL_iff]; simp
      all_goals simp [jveq]
  | .jdict d, w => by
      cases w
      case jdict e => simp only [jveq]; rw [jveqD_iff]; simp
      all_goals simp [jveq]
  | .jlink _ _ _ _ _ _, w => by cases w <;> simp [jveq, and_assoc]
  | .jobj _, w => by cases w <;> simp [jveq]

theorem jveqL_iff : ∀ l m, jveqL l m = true ↔ l = m
  | [], [] => by simp [jveqL]
  | [], _ :: _ => by simp [jveqL]
  | _ :: _, [] => by simp [jveqL]
  | v :: l, w :: m => by
      simp only [jveqL, Bool.and_eq_true]
      rw [jveq_iff, jveqL_iff]
      simp

theorem jveqD_iff : ∀ d e, jveqD d e = true ↔ d = e
  | [], [] => by simp [jveqD]
  | [], _ :: _ => by simp [jveqD]
  | _ :: _, [] => by simp [jveqD]
  | (k, v) :: d, (k', w) :: e => by
      simp only [jveqD, Bool.and_eq_true]
      rw [jveq_iff, jveqD_iff]
      simp [and_assoc]

end

instance : DecidableEq JVal := fun v w => decidable_of_iff _ (jveq_iff v w)

/-- Dict lookup (`k in d` / `d[k]` on a Python dict modelled as an
insertion-ordered association list). -/
def lookupKey (d : List (String × JVal)) (k : String) : Option JVal :=
  match d with
  | [] => none
  | (k', v) :: rest => if k' == k then some v else lookupKey rest k

mutual

/-- Well-formedness: every mapping in the tree has unique keys, as Python
dicts do by construction. -/
def wfJ : JVal → Bool
  | .jdict d => (listKeys d).Nodup && wfJD d
  | .jlist l => wfJL l
  | _ => true

def wfJL : List JVal → Bool
  | [] => true
  | v :: l => wfJ v && wfJL l

def wfJD : List (String × JVal) → Bool
  | [] => true
  | (_, v) :: d => wfJ v && wfJD d

end

theorem wfJD_mem : ∀ {d : List (String × JVal)}, wfJD d = true → ∀ kv ∈ d, wfJ kv.2 = true
  | [], _, _, h => absurd h (List.not_mem_nil _)
  | (k, v) :: d, hwf, kv, h => by
    simp only [wfJD, Bool.and_eq_true] at hwf
    rcases List.mem_cons.mp h with rfl | h
    · exact hwf.1
    · exact wfJD_mem hwf.2 kv h

theorem wfJL_mem : ∀ {l : List JVal}, wfJL l = true → ∀ v ∈ l, wfJ v = true
  | [], _, _, h => absurd h (List.not_mem_nil _)
  | v :: l, hwf, w, h => by
    simp only [wfJL, Bool.and_eq_true] at hwf
    rcases List.mem_cons.mp h with rfl | h
    · exact hwf.1
    · exact wfJL_mem hwf.2 w h

/-! ## hash32: MurmurHash3 x86 32-bit over the UTF-8 bytes of a string

`hash32` (utils.py:105) is `format(murmurhash.hash(dump) & (1 << 32)-1,
'x')`: the MurmurHash3 x86 32-bit hash of the UTF-8 encoding of the
string, rendered as minimal lowercase hexadecimal.  The `murmurhash`
package hashes the UTF-8 bytes with seed 0; the algorithm is implemented
below on `Nat` with explicit reduction modulo `2^32`.
-/

/-- Reduce modulo `2^32`. -/
def m32 (n : Nat) : Nat := n % 4294967296

/-- 32-bit left rotation (argument below `2^32`). -/
def rotl32 (x r : Nat) : Nat := (m32 (x <<< r)) ||| (x >>> (32 - r))

/-- MurmurHash3 block mix of a 32-bit chunk. -/
def mmix (k : Nat) : Nat :=
  m32 (rotl32 (m32 (k * 0xcc9e2d51)) 15 * 0x1b873593)

/-- MurmurHash3 state update for one 4-byte block. -/
def mstep (h k : Nat) : Nat :=
  m32 (rotl32 (h ^^^ mmix k) 13 * 5 + 0xe6546b64)

/-- Consume the byte stream: 4-byte little-endian blocks are mixed with
`mstep`; the trailing 1-3 bytes form the tail block.  `acc` holds the
pending bytes of the current block (little-endian) and `i` how many are
pending; processing one byte at a time keeps the recursion kernel-reducible. -/
def murmurBytes (h acc i : Nat) : List Nat → Nat
  | [] => if i = 0 then h else h ^^^ mmix acc
  | b :: rest =>
      if i = 3 then murmurBytes (mstep h (acc + b * 16777216)) 0 0 rest
      else murmurBytes h (acc + b * 256 ^ i) (i + 1) rest

/-- MurmurHash3 finalization mix. -/
def mfmix (h : Nat) : Nat :=
  let h := h ^^^ (h >>> 16)
  let h := m32 (h * 0x85ebca6b)
  let h := h ^^^ (h >>> 13)
  let h := m32 (h * 0xc2b2ae35)
  h ^^^ (h >>> 16)

/-- MurmurHash3 x86 32-bit of a byte list. -/
def murmur3 (bytes : List Nat) (seed : Nat) : Nat :=
  mfmix (murmurBytes seed 0 0 bytes ^^^ m32 bytes.length)

/-- UTF-8 encoding of one character. -/
def utf8Char (c : Char) : List Nat :=
  let n := c.toNat
  if n < 0x80 then [n]
  else if n < 0x800 then [0xC0 + n / 0x40, 0x80 + n % 0x40]
  else if n < 0x10000 then
    [0xE0 + n / 0x1000, 0x80 + (n / 0x40) % 0x40, 0x80 + n % 0x40]
  else
    [0xF0 + n / 0x40000, 0x80 + (n / 0x1000) % 0x40, 0x80 + (n / 0x40) % 0x40, 0x80 + n % 0x40]

/-- UTF-8 encoding of a string. -/
def utf8Str (s : String) : List Nat := s.data.flatMap utf8Char

/-- A lowercase hexadecimal digit. -/
def hexDigit (n : Nat) : Char := if n < 10 then Char.ofNat (48 + n) else Char.ofNat (87 + n)

/-- Big-endian hex digits of `x`, most significant first; `fuel` bounds the
digit count (8 suffices below `2^32`). -/
def natToHexAux : Nat → Nat → List Char
  | 0, _ => []
  | _ + 1, 0 => []
  | fuel + 1, x => natToHexAux fuel (x / 16) ++ [hexDigit (x % 16)]

/-- Python `format(x, 'x')` for `x < 2^32`: minimal lowercase hex, no
zero padding, `"0"` for zero. -/
def natToHex (x : Nat) : String := if x = 0 then "0" else String.mk (natToHexAux 8 x)

/-- `hash32` (utils.py:105): 32-bit MurmurHash of a string as lowercase hex. -/
def hash32 (dump : String) : String := natToHex (murmur3 (utf8Str dump) 0)

/-! ## json.dumps with sort_keys=True

`Node._setup_node` (node.py:376) serializes the hash view with
`json.dumps(self._hash_conf, sort_keys=True)`: default separators
`', '` and `': '`, `ensure_ascii=True` (characters outside the printable
ASCII range are `\uXXXX`-escaped), and every mapping's items sorted.
Since the serializer sorts each mapping on the fly, the model first sorts
every mapping in the tree (`sortAllDicts`) and then renders
(`dumpsRaw`); the composition `jsonDumpsSorted` is the serializer.
`json.dumps` raises `TypeError` on a `Link` or other foreign object; a
hash view contains none (the rewrite replaces them by strings), and the
model renders those unreachable arms as `"null"`.
-/

/-- Four fixed-width lowercase hex digits (the `XXXX` of `\uXXXX`). -/
def hex4 (n : Nat) : List Char :=
  [hexDigit (n / 4096 % 16), hexDigit (n / 256 % 16), hexDigit (n / 16 % 16), hexDigit (n % 16)]

/-- JSON escaping of one character with `ensure_ascii=True` (CPython
`json.encoder`: `\\`, `\"`, `\b`, `\f`, `\n`, `\r`, `\t`, otherwise
`\uXXXX` for characters outside `0x20`-`0x7e`, surrogate pairs beyond the
basic multilingual plane). -/
def jsonEscChar (c : Char) : List Char :=
  if c = '\\' then ['\\', '\\']
  else if c = '"' then ['\\', '"']
  else if c.toNat = 8 then ['\\', 'b']
  else if c.toNat = 12 then ['\\', 'f']
  else if c.toNat = 10 then ['\\', 'n']
  else if c.toNat = 13 then ['\\', 'r']
  else if c.toNat = 9 then ['\\', 't']
  else if 32 ≤ c.toNat ∧ c.toNat ≤ 126 then [c]
  else if c.toNat < 0x10000 then '\\' :: 'u' :: hex4 c.toNat
  else
    ('\\' :: 'u' :: hex4 (0xD800 + (c.toNat - 0x10000) / 0x400)) ++
      ('\\' :: 'u' :: hex4 (0xDC00 + (c.toNat - 0x10000) % 0x400))

/-- A JSON string literal. -/
def jsonStr (s : String) : String :=
  "\"" ++ String.mk (s.data.flatMap jsonEscChar) ++ "\""

mutual

/-- Sort every mapping in the tree by key (the `sort_keys=True` pass;
`sorted` on items compares keys first and values only on key ties, which
cannot arise in a dict). -/
def sortAllDicts : JVal → JVal
  | .jdict d => .jdict (sortPairs (sortAllDictsD d))
  | .jlist l => .jlist (sortAllDictsL l)
  | v => v

def sortAllDictsL : List JVal → List JVal
  | [] => []
  | v :: l => sortAllDicts v :: sortAllDictsL l

def sortAllDictsD : List (String × JVal) → List (String × JVal)
  | [] => []
  | (k, v) :: d => (k, sortAllDicts v) :: sortAllDictsD d

end

mutual

/-- Render a value as JSON with `json.dumps` default separators, without
sorting (the input is expected to be key-sorted already). -/
def dumpsRaw : JVal → String
  | .jnull => "null"
  | .jbool b => if b then "true" else "false"
  | .jint n => toString n
  | .jstr s => jsonStr s
  | .jlist l => "[" ++ String.intercalate ", " (dumpsRawL l) ++ "]"
  | .jdict d => "\x7b" ++ String.intercalate ", " (dumpsRawD d) ++ "\x7d"
  | .jlink _ _ _ _ _ _ => "null"
  | .jobj _ => "null"

def dumpsRawL : List JVal → List String
  | [] => []
  | v :: l => dumpsRaw v :: dumpsRawL l

def dumpsRawD : List (String × JVal) → List String
  | [] => []
  | (k, v) :: d => (jsonStr k ++ ": " ++ dumpsRaw v) :: dumpsRawD d

end

/-- `json.dumps(v, sort_keys=True)`. -/
def jsonDumpsSorted (v : JVal) : String := dumpsRaw (sortAllDicts v)

/-! ## Python errors -/

/-- The exceptions raised by the embedded code.  `FlowError` optionally
chains a cause (`raise ... from e`), written as the separate constructor
`flowErrorFrom`.  `modelFuelExhausted` is an artifact of the model: the
recursion fuel ran out (the sufficiency lemmas show it never surfaces for
well-formed inputs). -/
inductive PyErr where
  | typeError (msg : String) : PyErr
  | valueError (msg : String) : PyErr
  | recursionError (msg : String) : PyErr
  | fileNotFoundError (msg : String) : PyErr
  | flowError (msg : String) : PyErr
  | flowErrorFrom (msg : String) (cause : PyErr) : PyErr
  | keyError (msg : String) : PyErr
  | indexError (msg : String) : PyErr
  | modelFuelExhausted : PyErr
  deriving DecidableEq

instance {e a : Type} [DecidableEq e] [DecidableEq a] : DecidableEq (Except e a) := fun x y =>
  match x, y with
  | .ok v, .ok w =>
      if h : v = w then isTrue (by rw [h]) else isFalse (fun hc => by cases hc; exact h rfl)
  | .error v, .error w =>
      if h : v = w then isTrue (by rw [h]) else isFalse (fun hc => by cases hc; exact h rfl)
  | .ok _, .error _ => isFalse (fun hc => by cases hc)
  | .error _, .ok _ => isFalse (fun hc => by cases hc)

/-! ## The hash view (`RewriteHashConf`, conf.py:198)

`RewriteHashConf` has no depth bound (`max_depth=-1`).  At each mapping:
items whose key starts with `#` or `_` are discarded at depth 1 only
(`discard_item`, conf.py:201); kept items whose key starts with `#` have
their value copied verbatim (`Rewrite._rewrite_dict`, conf.py:83); the
resulting mapping is key-sorted (`sorted_dict`).  A `Link` at depth ≤ 2
renders as `<kind><source-slug><suffix>` (self links as `<kind>.`); any
other object — or a link deeper than depth 2 — becomes its
cloudpickle-hash or identity-hash string (conf.py:209-226).
-/

/-- `RewriteHashConf.discard_item`: drop `#`/`_` keys at depth 1. -/
def hashDiscard (k : String) (depth : Nat) : Bool :=
  depth == 1 && (strStarts k "#" || strStarts k "_")

mutual

/-- `RewriteHashConf().rewrite` at a given depth. -/
def hashR (depth : Nat) : JVal → JVal
  | .jdict d => .jdict (sortPairs (hashRD depth d))
  | .jlist l => .jlist (hashRL depth l)
  | .jlink kind isSelf slug sfx _ objHash =>
      if depth ≤ 2 then
        .jstr (kind ++ (if isSelf then "." else slug) ++ sfx)
      else
        .jstr objHash
  | .jobj objHash => .jstr objHash
  | v => v

def hashRL (depth : Nat) : List JVal → List JVal
  | [] => []
  | v :: l => hashR (depth + 1) v :: hashRL depth l

def hashRD (depth : Nat) : List (String × JVal) → List (String × JVal)
  | [] => []
  | (k, v) :: d =>
      if hashDiscard k (depth + 1) then hashRD depth d
      else (k, if strStarts k "#" then v else hashR (depth + 1) v) :: hashRD depth d

end

/-! ## Hash assignment in `Node._setup_node` (node.py:372-384)

The hash view is the rewritten node conf wrapped under the node's base
name.  Without an explicit `_hash`, the node's hash is
`hash32(json.dumps(hash_conf, sort_keys=True))`.  With an explicit
`_hash`, the value must be a string matching `re.match(r'[a-z0-9]{1,8}',
...)` — an **anchored prefix** match, not a full match — else
`ValueError` is raised.
-/

/-- The node's `_hash_conf`: the hash view wrapped under the base name. -/
def hashConfOf (base : String) (nodeConf : List (String × JVal)) : JVal :=
  .jdict [(base, hashR 0 (.jdict nodeConf))]

/-- Lowercase-alphanumeric character class `[a-z0-9]`. -/
def isLowerAlnum (c : Char) : Bool :=
  (97 ≤ c.toNat && c.toNat ≤ 122) || (48 ≤ c.toNat && c.toNat ≤ 57)

/-- `re.match(r'[a-z0-9]{1,8}', s)` succeeds: some prefix of length 1 to 8
consists of `[a-z0-9]` characters. -/
def reMatchHash (s : String) : Bool :=
  (List.range' 1 8).any (fun k => k ≤ s.data.length && (s.data.take k).all isLowerAlnum)

/-- The hash assignment of `Node._setup_node` (node.py:374-384); returns
the node's hash or the raised error. -/
def setupHash (base : String) (nodeConf : List (String × JVal)) : Except PyErr String :=
  match lookupKey nodeConf "_hash" with
  | none => .ok (hash32 (jsonDumpsSorted (hashConfOf base nodeConf)))
  | some (.jstr h) =>
      if reMatchHash h then .ok h
      else .error (.valueError ("\"_hash\" must be a 32-bit hex string and not: " ++ h))
  | some _ => .error (.valueError "\"_hash\" must be a 32-bit hex string and not: <non-string>")

/-! ## Reordering mapping items

`EquivJ v w` holds when `w` is obtained from `v` by permuting the items
of mappings anywhere in the tree (the values may themselves be reordered
first, then the items permuted).  This captures "the same configuration
written with a different mapping insertion order".
-/

mutual

inductive EquivJ : JVal → JVal → Prop where
  | refl (v : JVal) : EquivJ v v
  | list {l l' : List JVal} : EquivL l l' → EquivJ (.jlist l) (.jlist l')
  | dict {d m d' : List (String × JVal)} :
      EquivD d m → m.Perm d' → EquivJ (.jdict d) (.jdict d')

inductive EquivL : List JVal → List JVal → Prop where
  | nil : EquivL [] []
  | cons {v w : JVal} {l l' : List JVal} :
      EquivJ v w → EquivL l l' → EquivL (v :: l) (w :: l')

inductive EquivD : List (String × JVal) → List (String × JVal) → Prop where
  | nil : EquivD [] []
  | cons {k : String} {v w : JVal} {d d' : List (String × JVal)} :
      EquivJ v w → EquivD d d' → EquivD ((k, v) :: d) ((k, w) :: d')

end

/-- The pointwise relation underlying `EquivD`. -/
def pairEquiv (a b : String × JVal) : Prop := a.1 = b.1 ∧ EquivJ a.2 b.2

theorem equivD_refl : ∀ (d : List (String × JVal)), EquivD d d
  | [] => .nil
  | (_, _) :: d => .cons (.refl _) (equivD_refl d)

theorem equivL_refl : ∀ (l : List JVal), EquivL l l
  | [] => .nil
  | _ :: l => .cons (.refl _) (equivL_refl l)

theorem equivD_forall₂ : ∀ {d e : List (String × JVal)}, EquivD d e →
    List.Forall₂ pairEquiv d e
  | _, _, .nil => .nil
  | _, _, .cons hv hd => .cons ⟨rfl, hv⟩ (equivD_forall₂ hd)

theorem forall₂_equivD : ∀ {d e : List (String × JVal)},
    List.Forall₂ pairEquiv d e → EquivD d e
  | [], [], _ => .nil
  | (k, v) :: d, (k', w) :: e, h => by
    rcases h with _ | ⟨⟨hk, hv⟩, hrest⟩
    cases hk
    exact .cons hv (forall₂_equivD hrest)

theorem equivD_keys : ∀ {d e : List (String × JVal)}, EquivD d e →
    listKeys d = listKeys e
  | _, _, .nil => rfl
  | _, _, .cons _ hd => by simp [listKeys] at *; exact equivD_keys hd

/-- Inversion for `EquivJ` on mappings. -/
theorem equivJ_dict_inv {d d' : List (String × JVal)}
    (h : EquivJ (.jdict d) (.jdict d')) : ∃ m, EquivD d m ∧ m.Perm d' := by
  cases h with
  | refl => exact ⟨d, equivD_refl d, List.Perm.refl d⟩
  | dict hD hP => exact ⟨_, hD, hP⟩

/-- `hashRD` written as filter-then-map, for permutation reasoning. -/
theorem hashRD_eq_filterMap (dep : Nat) : ∀ (d : List (String × JVal)),
    hashRD dep d = (d.filter (fun kv => ! hashDiscard kv.1 (dep + 1))).map
      (fun kv => (kv.1, if strStarts kv.1 "#" then kv.2 else hashR (dep + 1) kv.2))
  | [] => rfl
  | (k, v) :: d => by
    by_cases h : hashDiscard k (dep + 1) = true
    · simp [hashRD, h, List.filter, hashRD_eq_filterMap dep d]
    · simp [hashRD, h, List.filter, hashRD_eq_filterMap dep d]

mutual

theorem hashR_equiv : ∀ {v w : JVal}, EquivJ v w → ∀ dep,
    EquivJ (hashR dep v) (hashR dep w)
  | _, _, .refl v, dep => .refl _
  | _, _, .list h, dep => by
    simp only [hashR]
    exact .list (hashRL_equiv h dep)
  | _, _, @EquivJ.dict d m d' hD hP, dep => by
    simp only [hashR]
    have h1 : EquivD (sortPairs (hashRD dep d)) (sortPairs (hashRD dep m)) :=
      forall₂_equivD (sortPairs_forall₂ (fun a b h => h.1)
        (equivD_forall₂ (hashRD_equiv hD dep)))
    have h2 : (sortPairs (hashRD dep m)).Perm (sortPairs (hashRD dep d')) := by
      refine ((sortPairs_perm _).trans ?_).trans (sortPairs_perm _).symm
      rw [hashRD_eq_filterMap, hashRD_eq_filterMap]
      exact (hP.filter _).map _
    exact .dict h1 h2

theorem hashRL_equiv : ∀ {l l' : List JVal}, EquivL l l' → ∀ dep,
    EquivL (hashRL dep l) (hashRL dep l')
  | _, _, .nil, dep => .nil
  | _, _, .cons hv hl, dep => by
    simp only [hashRL]
    exact .cons (hashR_equiv hv (dep + 1)) (hashRL_equiv hl dep)

theorem hashRD_equiv : ∀ {d d' : List (String × JVal)}, EquivD d d' → ∀ dep,
    EquivD (hashRD dep d) (hashRD dep d')
  | _, _, .nil, dep => .nil
  | _, _, @EquivD.cons k v w d d' hv hd, dep => by
    simp only [hashRD]
    by_cases hdisc : hashDiscard k (dep + 1) = true
    · simp only [hdisc, if_true]
      exact hashRD_equiv hd dep
    · simp only [hdisc, if_false]
      by_cases hcom : strStarts k "#" = true
      · simp only [hcom, if_true]
        exact .cons hv (hashRD_equiv hd dep)
      · simp only [hcom, if_false]
        exact .cons (hashR_equiv hv (dep + 1)) (hashRD_equiv hd dep)

end

/-- `wfJD` via membership. -/
theorem wfJD_iff_mem : ∀ (d : List (String × JVal)),
    wfJD d = true ↔ ∀ kv ∈ d, wfJ kv.2 = true
  | [] => by simp [wfJD]
  | (k, v) :: d => by
    simp only [wfJD, Bool.and_eq_true, List.mem_cons, wfJD_iff_mem d]
    constructor
    · rintro ⟨hv, hd⟩ kv (rfl | h)
      · exact hv
      · exact hd kv h
    · intro h
      exact ⟨h (k, v) (Or.inl rfl), fun kv hm => h kv (Or.inr hm)⟩

theorem wfJD_of_perm {d e : List (String × JVal)} (p : d.Perm e) (h : wfJD d = true) :
    wfJD e = true := by
  rw [wfJD_iff_mem] at h ⊢
  exact fun kv hm => h kv (p.symm.subset hm)

mutual

theorem hashR_wf : ∀ (v : JVal), wfJ v = true → ∀ dep, wfJ (hashR dep v) = true
  | .jnull, _, _ => rfl
  | .jbool _, _, _ => rfl
  | .jint _, _, _ => rfl
  | .jstr _, _, _ => rfl
  | .jlink _ _ _ _ _ _, _, dep => by
    simp only [hashR]
    by_cases h : dep ≤ 2 <;> simp [h, wfJ]
  | .jobj _, _, _ => rfl
  | .jlist l, h, dep => by
    simp only [hashR, wfJ]
    exact hashRL_wf l (by simpa [wfJ] using h) dep
  | .jdict d, h, dep => by
    simp only [wfJ, Bool.and_eq_true] at h
    simp only [hashR, wfJ, Bool.and_eq_true]
    constructor
    · have hsub : listKeys (hashRD dep d) = (listKeys (d.filter (fun kv => ! hashDiscard kv.1 (dep + 1)))) := by
        rw [hashRD_eq_filterMap]
        simp [listKeys, List.map_map]
      have hnodup : (listKeys (hashRD dep d)).Nodup := by
        rw [hsub]
        unfold listKeys
        exact ((List.filter_sublist d).map Prod.fst).nodup (of_decide_eq_true h.1)
      exact decide_eq_true (nodupKeys_of_perm (sortPairs_perm (hashRD dep d)).symm hnodup)
    · apply wfJD_of_perm (sortPairs_perm (hashRD dep d)).symm
      exact hashRD_wf d h.2 dep

theorem hashRL_wf : ∀ (l : List JVal), wfJL l = true → ∀ dep, wfJL (hashRL dep l) = true
  | [], _, _ => rfl
  | v :: l, h, dep => by
    simp only [wfJL, Bool.and_eq_true] at h
    simp only [hashRL, wfJL, Bool.and_eq_true]
    exact ⟨hashR_wf v h.1 (dep + 1), hashRL_wf l h.2 dep⟩

theorem hashRD_wf : ∀ (d : List (String × JVal)), wfJD d = true → ∀ dep,
    wfJD (hashRD dep d) = true
  | [], _, _ => rfl
  | (k, v) :: d, h, dep => by
    simp only [wfJD, Bool.and_eq_true] at h
    simp only [hashRD]
    by_cases hdisc : hashDiscard k (dep + 1) = true
    · simp only [hdisc, if_true]
      exact hashRD_wf d h.2 dep
    · simp only [hdisc, if_false]
      by_cases hcom : strStarts k "#" = true
      · simp only [hcom, if_true, wfJD, Bool.and_eq_true]
        exact ⟨h.1, hashRD_wf d h.2 dep⟩
      · simp only [hcom, if_false, wfJD, Bool.and_eq_true]
        exact ⟨hashR_wf v h.1 (dep + 1), hashRD_wf d h.2 dep⟩

end

/-- `sortAllDictsD` is a map over the items. -/
theorem sortAllDictsD_eq_map : ∀ (d : List (String × JVal)),
    sortAllDictsD d = d.map (fun kv => (kv.1, sortAllDicts kv.2))
  | [] => rfl
  | (k, v) :: d => by simp [sortAllDictsD, sortAllDictsD_eq_map d]

mutual

/-- Key-sorted serialization is invariant under reordering of mapping
items: the heart of position independence of the node hash. -/
theorem sortAll_equiv : ∀ {v w : JVal}, EquivJ v w → wfJ v = true →
    sortAllDicts v = sortAllDicts w
  | _, _, .refl v, _ => rfl
  | _, _, .list h, hwf => by
    simp only [sortAllDicts]
    rw [sortAllL_equiv h (by simpa [wfJ] using hwf)]
  | _, _, @EquivJ.dict d m d' hD hP, hwf => by
    simp only [wfJ, Bool.and_eq_true] at hwf
    simp only [sortAllDicts]
    rw [sortAllD_equiv hD hwf.2]
    congr 1
    apply sortPairs_eq_of_perm
    · rw [sortAllDictsD_eq_map, sortAllDictsD_eq_map]
      exact hP.map _
    · have : listKeys (sortAllDictsD m) = listKeys m := by
        rw [sortAllDictsD_eq_map]
        simp [listKeys, List.map_map]
      unfold nodupKeys
      rw [this, ← equivD_keys hD]
      exact of_decide_eq_true hwf.1

theorem sortAllL_equiv : ∀ {l l' : List JVal}, EquivL l l' → wfJL l = true →
    sortAllDictsL l = sortAllDictsL l'
  | _, _, .nil, _ => rfl
  | _, _, .cons hv hl, hwf => by
    simp only [wfJL, Bool.and_eq_true] at hwf
    simp only [sortAllDictsL]
    rw [sortAll_equiv hv hwf.1, sortAllL_equiv hl hwf.2]

theorem sortAllD_equiv : ∀ {d d' : List (String × JVal)}, EquivD d d' → wfJD d = true →
    sortAllDictsD d = sortAllDictsD d'
  | _, _, .nil, _ => rfl
  | _, _, .cons hv hd, hwf => by
    simp only [wfJD, Bool.and_eq_true] at hwf
    simp only [sortAllDictsD]
    rw [sortAll_equiv hv hwf.1, sortAllD_equiv hd hwf.2]

end

/-! ## Properties of the hex rendering and the 32-bit bound -/

/-- Lowercase hexadecimal character class. -/
def isLowerHexDigit (c : Char) : Bool :=
  (48 ≤ c.toNat && c.toNat ≤ 57) || (97 ≤ c.toNat && c.toNat ≤ 102)

theorem m32_lt (n : Nat) : m32 n < 4294967296 := Nat.mod_lt _ (by norm_num)

theorem pow32_eq : (4294967296 : Nat) = 2 ^ 32 := by norm_num

theorem xor_lt_32 {a b : Nat} (ha : a < 4294967296) (hb : b < 4294967296) :
    a ^^^ b < 4294967296 := by
  rw [pow32_eq] at ha hb ⊢
  exact Nat.xor_lt_two_pow ha hb

theorem shiftRight_le_self (h n : Nat) : h >>> n ≤ h := by
  rw [Nat.shiftRight_eq_div_pow]
  exact Nat.div_le_self _ _

theorem mmix_lt (k : Nat) : mmix k < 4294967296 := m32_lt _

theorem mstep_lt (h k : Nat) : mstep h k < 4294967296 := m32_lt _

theorem murmurBytes_lt : ∀ (bytes : List Nat) (h acc i : Nat), h < 4294967296 →
    murmurBytes h acc i bytes < 4294967296
  | [], h, acc, i, hh => by
      unfold murmurBytes
      by_cases h0 : i = 0
      · simpa [h0] using hh
      · simpa [h0] using xor_lt_32 hh (mmix_lt _)
  | b :: rest, h, acc, i, hh => by
      unfold murmurBytes
      by_cases h3 : i = 3
      · simpa [h3] using murmurBytes_lt rest _ 0 0 (mstep_lt _ _)
      · simpa [h3] using murmurBytes_lt rest h _ _ hh

theorem mfmix_lt {h : Nat} (hh : h < 4294967296) : mfmix h < 4294967296 := by
  unfold mfmix
  exact xor_lt_32 (m32_lt _) (Nat.lt_of_le_of_lt (shiftRight_le_self _ _) (m32_lt _))

theorem murmur3_lt (bytes : List Nat) {seed : Nat} (hs : seed < 4294967296) :
    murmur3 bytes seed < 4294967296 := by
  unfold murmur3
  exact mfmix_lt (xor_lt_32 (murmurBytes_lt bytes seed 0 0 hs) (m32_lt _))

theorem hexDigit_facts : ∀ m, m < 16 →
    isLowerHexDigit (hexDigit m) = true ∧ (m ≠ 0 → hexDigit m ≠ '0') := by decide

theorem natToHexAux_length : ∀ (fuel x : Nat), (natToHexAux fuel x).length ≤ fuel
  | 0, _ => Nat.le_refl 0
  | fuel + 1, 0 => Nat.zero_le _
  | fuel + 1, x + 1 => by
    show (natToHexAux fuel ((x + 1) / 16) ++ [hexDigit ((x + 1) % 16)]).length ≤ fuel + 1
    simp only [List.length_append, List.length_cons, List.length_nil]
    have := natToHexAux_length fuel ((x + 1) / 16)
    omega

theorem natToHexAux_lower : ∀ (fuel x : Nat),
    (natToHexAux fuel x).all isLowerHexDigit = true
  | 0, _ => rfl
  | fuel + 1, 0 => rfl
  | fuel + 1, x + 1 => by
    show ((natToHexAux fuel ((x + 1) / 16) ++ [hexDigit ((x + 1) % 16)]).all isLowerHexDigit) = true
    rw [List.all_append]
    simp only [Bool.and_eq_true]
    refine ⟨natToHexAux_lower fuel _, ?_⟩
    simp [List.all_cons, (hexDigit_facts _ (Nat.mod_lt _ (by norm_num))).1]

theorem natToHexAux_zero : ∀ fuel, natToHexAux fuel 0 = []
  | 0 => rfl
  | _ + 1 => rfl

theorem natToHexAux_head : ∀ (fuel x : Nat), x ≠ 0 → x < 16 ^ fuel →
    ∃ c cs, natToHexAux fuel x = c :: cs ∧ c ≠ '0'
  | 0, x, hx, hlt => absurd (Nat.lt_one_iff.mp hlt) hx
  | fuel + 1, x, hx, hlt => by
    obtain ⟨y, rfl⟩ : ∃ y, x = y + 1 := ⟨x - 1, by omega⟩
    show ∃ c cs, natToHexAux fuel ((y + 1) / 16) ++ [hexDigit ((y + 1) % 16)] = c :: cs ∧ c ≠ '0'
    by_cases hdiv : (y + 1) / 16 = 0
    · rw [hdiv, natToHexAux_zero]
      have hmod : (y + 1) % 16 = y + 1 := Nat.mod_eq_of_lt (by omega)
      exact ⟨_, _, rfl, (hexDigit_facts _ (by omega)).2 (by omega)⟩
    · have hlt' : (y + 1) / 16 < 16 ^ fuel := by
        rw [Nat.div_lt_iff_lt_mul (by norm_num)]
        calc y + 1 < 16 ^ (fuel + 1) := hlt
        _ = 16 ^ fuel * 16 := by rw [Nat.pow_succ]
      obtain ⟨c, cs, heq, hc⟩ := natToHexAux_head fuel ((y + 1) / 16) hdiv hlt'
      exact ⟨c, cs ++ [hexDigit ((y + 1) % 16)], by rw [heq]; rfl, hc⟩

theorem natToHex_props {x : Nat} (hx : x < 4294967296) :
    (natToHex x).length ≤ 8 ∧ (natToHex x).data.all isLowerHexDigit = true ∧
      ((natToHex x).data.head? = some '0' → natToHex x = "0") := by
  unfold natToHex
  by_cases h0 : x = 0
  · subst h0
    exact ⟨by decide, by decide, by decide⟩
  · rw [if_neg h0]
    obtain ⟨c, cs, heq, hc⟩ := natToHexAux_head 8 x h0 (by norm_num; omega)
    refine ⟨?_, ?_, ?_⟩
    · show (natToHexAux 8 x).length ≤ 8
      exact natToHexAux_length 8 x
    · exact natToHexAux_lower 8 x
    · intro hhead
      rw [heq] at hhead
      simp at hhead
      exact absurd hhead hc

/-- `lookupKey` is `none` exactly when the key is absent. -/
theorem lookupKey_none_iff : ∀ (d : List (String × JVal)) (k : String),
    lookupKey d k = none ↔ k ∉ listKeys d
  | [], k => by simp [lookupKey, listKeys]
  | (k', v) :: d, k => by
    simp only [lookupKey, listKeys, List.map_cons, List.mem_cons]
    by_cases h : (k' == k) = true
    · simp [h, beq_iff_eq.mp h]
    · have hne : ¬ k = k' := fun hh => h (beq_iff_eq.mpr hh.symm)
      simp only [h, if_false, Bool.false_eq_true]
      rw [lookupKey_none_iff d k]
      unfold listKeys
      simp [hne]

/-! ## C1: the hash pipeline -/

/-- C1: for every node whose configuration does not supply an explicit
`_hash`, the hash assigned by setup equals the lowercase, non-zero-padded
hex rendering (at most 8 characters) of MurmurHash32 of the canonical
JSON serialization (sorted keys) of the node's hash view wrapped under
its base name; and the hash is invariant under any reordering of mapping
items anywhere in the configuration, hence a deterministic pure function
of the hash view independent of mapping insertion order. -/
theorem hash_pipeline_canonical (base : String) (conf conf' : List (String × JVal))
    (hwf : wfJ (.jdict conf) = true)
    (heq : EquivJ (.jdict conf) (.jdict conf'))
    (hno : lookupKey conf "_hash" = none) :
    setupHash base conf = .ok (hash32 (jsonDumpsSorted (hashConfOf base conf))) ∧
    setupHash base conf' = setupHash base conf ∧
    ∀ h, setupHash base conf = .ok h →
      h.length ≤ 8 ∧ h.data.all isLowerHexDigit = true ∧
        (h.data.head? = some '0' → h = "0") := by
  obtain ⟨m, hD, hP⟩ := equivJ_dict_inv heq
  have hno' : lookupKey conf' "_hash" = none := by
    rw [lookupKey_none_iff]
    intro hmem
    exact (lookupKey_none_iff conf "_hash").mp hno
      (by
        rw [equivD_keys hD]
        exact (hP.map Prod.fst).mem_iff.mpr hmem)
  have hfirst : setupHash base conf = .ok (hash32 (jsonDumpsSorted (hashConfOf base conf))) := by
    unfold setupHash
    rw [hno]
  have hEw : EquivJ (hashConfOf base conf) (hashConfOf base conf') :=
    .dict (.cons (hashR_equiv heq 0) .nil) (List.Perm.refl _)
  have hWw : wfJ (hashConfOf base conf) = true := by
    have h1 : (listKeys [(base, hashR 0 (.jdict conf))]).Nodup := by simp [listKeys]
    have h2 : wfJD [(base, hashR 0 (.jdict conf))] = true := by
      simp only [wfJD, Bool.and_eq_true]
      exact ⟨hashR_wf _ hwf 0, trivial⟩
    show (decide (listKeys [(base, hashR 0 (.jdict conf))]).Nodup &&
      wfJD [(base, hashR 0 (.jdict conf))]) = true
    rw [decide_eq_true h1, h2]
    rfl
  have hsame : jsonDumpsSorted (hashConfOf base conf') = jsonDumpsSorted (hashConfOf base conf) := by
    unfold jsonDumpsSorted
    rw [sortAll_equiv hEw hWw]
  refine ⟨hfirst, ?_, ?_⟩
  · unfold setupHash
    rw [hno, hno', hsame]
  · intro h hh
    rw [hfirst] at hh
    cases hh
    unfold hash32
    exact natToHex_props (murmur3_lt _ (by norm_num))

/-- Evaluation of `hash_pipeline_canonical` at a two-entry configuration
given in both insertion orders. -/
theorem hash_pipeline_canonical_witness :
    setupHash "dict" [("a", JVal.jint 2), ("b", JVal.jint 1)] =
      setupHash "dict" [("b", JVal.jint 1), ("a", JVal.jint 2)] :=
  (hash_pipeline_canonical "dict" [("b", JVal.jint 1), ("a", JVal.jint 2)]
    [("a", JVal.jint 2), ("b", JVal.jint 1)]
    (by decide)
    (.dict (.cons (.refl _) (.cons (.refl _) .nil))
      (List.Perm.swap ("a", JVal.jint 2) ("b", JVal.jint 1) []))
    (by decide)).2.1

/-! ## C2: explicit `_hash` validation -/

/-- The shape the claim asserts is required of an explicit `_hash`: the
whole string is 1 to 8 lowercase-alphanumeric characters.  Stated from
the claim's words (a full match of `[a-z0-9]{1,8}`), for comparison with
the code's prefix match. -/
def specFullHashShape (s : String) : Bool :=
  1 ≤ s.data.length && s.data.length ≤ 8 && s.data.all isLowerAlnum

/-- C2 counterexample: `_hash = "aaaaaaaaa"` (nine characters) is not of
the full shape `[a-z0-9]{1,8}`, yet `re.match` finds a prefix match and
setup accepts it as the node's hash instead of raising. -/
theorem explicit_hash_overlong_accepted :
    setupHash "d" [("_hash", JVal.jstr "aaaaaaaaa")] = .ok "aaaaaaaaa" ∧
      specFullHashShape "aaaaaaaaa" = false := by decide

theorem reMatchHash_iff (s : String) :
    reMatchHash s = true ↔ ∃ c cs, s.data = c :: cs ∧ isLowerAlnum c = true := by
  unfold reMatchHash
  rw [List.any_eq_true]
  constructor
  · rintro ⟨k, hk, hcond⟩
    simp only [Bool.and_eq_true, decide_eq_true_eq] at hcond
    have h1 : 1 ≤ k := by
      have := List.mem_range'_1.mp hk
      omega
    obtain ⟨hlen, hall⟩ := hcond
    cases hd : s.data with
    | nil => rw [hd] at hlen; simp at hlen; omega
    | cons c cs =>
      refine ⟨c, cs, rfl, ?_⟩
      rw [hd] at hall
      have hc : c ∈ (c :: cs).take k := by
        cases k with
        | zero => omega
        | succ k => simp [List.take_succ_cons]
      exact List.all_eq_true.mp hall c hc
  · rintro ⟨c, cs, hd, hc⟩
    refine ⟨1, by decide, ?_⟩
    simp [hd, hc]

/-- C2 amended: setup accepts an explicit `_hash` exactly when it is a
string whose **first** character is lowercase-alphanumeric (`re.match`
anchors at the start but does not require a full match); a non-string or
a string not starting with `[a-z0-9]` raises `ValueError` and no hash is
assigned. -/
theorem explicit_hash_prefix_validation (base : String) (conf : List (String × JVal))
    (v : JVal) (hlk : lookupKey conf "_hash" = some v) :
    (∀ s, v = .jstr s →
      ((∃ c cs, s.data = c :: cs ∧ isLowerAlnum c = true) →
          setupHash base conf = .ok s) ∧
      ((∀ c cs, s.data = c :: cs → isLowerAlnum c = false) →
          ∃ msg, setupHash base conf = .error (.valueError msg))) ∧
    ((∀ s, v ≠ .jstr s) → ∃ msg, setupHash base conf = .error (.valueError msg)) := by
  constructor
  · rintro s rfl
    constructor
    · intro hex
      simp only [setupHash, hlk]
      rw [if_pos ((reMatchHash_iff s).mpr hex)]
    · intro hno
      simp only [setupHash, hlk]
      rw [if_neg (fun hmatch => ?_)]
      · exact ⟨_, rfl⟩
      · obtain ⟨c, cs, hd, hc⟩ := (reMatchHash_iff s).mp hmatch
        rw [hno c cs hd] at hc
        cases hc
  · intro hns
    simp only [setupHash, hlk]
    cases v with
    | jstr s => exact absurd rfl (hns s)
    | jnull => exact ⟨_, rfl⟩
    | jbool b => exact ⟨_, rfl⟩
    | jint n => exact ⟨_, rfl⟩
    | jlist l => exact ⟨_, rfl⟩
    | jdict d => exact ⟨_, rfl⟩
    | jlink k i g x r o => exact ⟨_, rfl⟩
    | jobj o => exact ⟨_, rfl⟩

/-- Evaluation of `explicit_hash_prefix_validation`: `_hash = "a!"` starts
with a lowercase-alphanumeric character, so setup accepts it. -/
theorem explicit_hash_prefix_validation_witness :
    setupHash "d" [("_hash", JVal.jstr "a!")] = .ok "a!" :=
  (((explicit_hash_prefix_validation "d" [("_hash", JVal.jstr "a!")]
      (JVal.jstr "a!") (by decide)).1 "a!" rfl).1 ⟨'a', ['!'], rfl, by decide⟩)

/-! ## C3: comment keys and the hash view -/

/-- C3 counterexample: a comment key at depth 2 of the configuration tree
survives into the hash view unchanged and changes the computed hash — the
hash view of `{a: {"#c": 1}}` retains `#c` and hashes differently from
`{a: {}}`. -/
theorem nested_comment_key_hashed :
    hashR 0 (.jdict [("a", JVal.jdict [("#c", JVal.jint 1)])]) =
      .jdict [("a", JVal.jdict [("#c", JVal.jint 1)])] ∧
    setupHash "d" [("a", JVal.jdict [("#c", JVal.jint 1)])] ≠
      setupHash "d" [("a", JVal.jdict [])] := by
  constructor
  · decide
  · decide

/-- C3 amended: a key beginning with `#` (or `_`) at **depth 1** of the
node configuration never appears among the keys of the hash view; at
greater depths, `RewriteHashConf.discard_item` does not apply and comment
keys are retained (see `nested_comment_key_hashed`). -/
theorem comment_keys_depth1_not_hashed : ∀ (d : List (String × JVal)),
    (match hashR 0 (.jdict d) with
      | .jdict e => (listKeys e).all (fun k => !(strStarts k "#") && !(strStarts k "_"))
      | _ => false) = true := by
  intro d
  simp only [hashR]
  rw [List.all_eq_true]
  intro k hk
  have hperm : (listKeys (sortPairs (hashRD 0 d))).Perm (listKeys (hashRD 0 d)) :=
    (sortPairs_perm _).map Prod.fst
  have hk' : k ∈ listKeys (hashRD 0 d) := hperm.mem_iff.mp hk
  rw [hashRD_eq_filterMap] at hk'
  simp only [listKeys, List.map_map, List.mem_map, List.mem_filter] at hk'
  obtain ⟨kv, ⟨_, hkeep⟩, rfl⟩ := hk'
  simp only [hashDiscard] at hkeep
  simp only [Function.comp]
  revert hkeep
  cases h1 : strStarts kv.1 "#" <;> cases h2 : strStarts kv.1 "_" <;> simp

/-! ## The args view (`RewriteArgsConf`, conf.py:167)

`RewriteArgsConf` has `max_depth=2`: values deeper than depth 2 are
returned untouched and their mappings are not sorted.  `discard_item`
drops items whose key starts with `#` at depth 1, items whose key starts
with `_` at **any** reached depth (the Python condition
`depth == 1 and k.startswith('#') or k.startswith('_')` binds this way),
and at depth 1 any item equal to its function default, either directly or
after JSON normalization of both sides (`_json_coerce`).  Kept comment
items copy their value verbatim.  Mappings reached at depth ≤ 2 are
key-sorted; links render as their canonical string.
-/

mutual

/-- `StopRewriteObjects().rewrite` (conf.py:161): foreign objects and
links are replaced by `None` (their `StopRewrite` is caught inside
`_rewrite`, which then returns `None`); values of comment keys are
copied verbatim. -/
def stopRW : JVal → JVal
  | .jobj _ => .jnull
  | .jlink _ _ _ _ _ _ => .jnull
  | .jdict d => .jdict (stopRWD d)
  | .jlist l => .jlist (stopRWL l)
  | v => v

def stopRWL : List JVal → List JVal
  | [] => []
  | v :: l => stopRW v :: stopRWL l

def stopRWD : List (String × JVal) → List (String × JVal)
  | [] => []
  | (k, v) :: d => (k, if strStarts k "#" then v else stopRW v) :: stopRWD d

end

mutual

/-- Whether a foreign object or link occurs anywhere in the tree (after
`stopRW` they can only hide under comment keys); `json.dumps` raises
`TypeError` on them. -/
def hasObjB : JVal → Bool
  | .jobj _ => true
  | .jlink _ _ _ _ _ _ => true
  | .jdict d => hasObjD d
  | .jlist l => hasObjL l
  | _ => false

def hasObjL : List JVal → Bool
  | [] => false
  | v :: l => hasObjB v || hasObjL l

def hasObjD : List (String × JVal) → Bool
  | [] => false
  | (_, v) :: d => hasObjB v || hasObjD d

end

/-- `RewriteArgsConf._json_coerce` (conf.py:174):
`json.loads(json.dumps(StopRewriteObjects().rewrite(o)))`.  On
object-free trees the dump/load round trip is the identity at this level
of modelling; when an object survives under a comment key, `json.dumps`
raises `TypeError` (`none` here), aborting setup rather than producing a
value. -/
def jsonCoerce (v : JVal) : Option JVal :=
  let u := stopRW v
  if hasObjB u then none else some u

/-- `RewriteArgsConf.discard_item` (conf.py:177).  When `_json_coerce`
would raise (an object under a comment key), the Python call aborts with
the exception instead of returning a verdict; the model answers `false`
there and the theorems below never exercise that case. -/
def argsDiscard (defs : List (String × JVal)) (k : String) (v : JVal) (depth : Nat) : Bool :=
  if (depth == 1 && strStarts k "#") || strStarts k "_" then true
  else if depth == 1 then
    match lookupKey defs k with
    | some dflt =>
        jveq v dflt || ((jsonCoerce v).isSome && decide (jsonCoerce v = jsonCoerce dflt))
    | none => false
  else false

mutual

/-- `RewriteArgsConf(func_defs).rewrite` at a given depth; above
`max_depth=2` the value is returned untouched. -/
def argsR (defs : List (String × JVal)) (depth : Nat) (v : JVal) : JVal :=
  if depth > 2 then v
  else match v with
    | .jdict d => .jdict (sortPairs (argsRD defs depth d))
    | .jlist l => .jlist (argsRL defs depth l)
    | .jlink _ _ _ _ rendered _ => .jstr rendered
    | w => w

def argsRL (defs : List (String × JVal)) (depth : Nat) : List JVal → List JVal
  | [] => []
  | v :: l => argsR defs (depth + 1) v :: argsRL defs depth l

def argsRD (defs : List (String × JVal)) (depth : Nat) :
    List (String × JVal) → List (String × JVal)
  | [] => []
  | (k, v) :: d =>
      if argsDiscard defs k v (depth + 1) then argsRD defs depth d
      else (k, if strStarts k "#" then v else argsR defs (depth + 1) v) :: argsRD defs depth d

end

/-- The node's `_args_conf` (node.py:341):
`RewriteArgsConf(self._func.defs).rewrite(self._node_conf)`. -/
def argsConf (defs nodeConf : List (String × JVal)) : JVal :=
  argsR defs 0 (.jdict nodeConf)

/-- Adjacent-pairs check that an association list is sorted by key. -/
def keysSortedB {α : Type} : List (String × α) → Bool
  | [] => true
  | [_] => true
  | a :: b :: rest => strLe a.1 b.1 && keysSortedB (b :: rest)

mutual

/-- Every mapping anywhere in the tree is sorted by key — the claim's
reading of "args_conf mappings are sorted by key". -/
def allDictsSorted : JVal → Bool
  | .jdict d => keysSortedB d && allDictsSortedD d
  | .jlist l => allDictsSortedL l
  | _ => true

def allDictsSortedL : List JVal → Bool
  | [] => true
  | v :: l => allDictsSorted v && allDictsSortedL l

def allDictsSortedD : List (String × JVal) → Bool
  | [] => true
  | (_, v) :: d => allDictsSorted v && allDictsSortedD d

end

mutual

/-- Mappings reached by the depth-2-bounded rewrite are sorted: dicts at
depth ≤ 2 outside comment-key subtrees.  Deeper mappings and verbatim
comment values are exempt. -/
def dictsSortedTo (dep : Nat) (v : JVal) : Bool :=
  if dep > 2 then true
  else match v with
    | .jdict d => keysSortedB d && dictsSortedToD dep d
    | .jlist l => dictsSortedToL dep l
    | _ => true

def dictsSortedToL (dep : Nat) : List JVal → Bool
  | [] => true
  | v :: l => dictsSortedTo (dep + 1) v && dictsSortedToL dep l

def dictsSortedToD (dep : Nat) : List (String × JVal) → Bool
  | [] => true
  | (k, v) :: d =>
      (strStarts k "#" || dictsSortedTo (dep + 1) v) && dictsSortedToD dep d

end

theorem lookupKey_some_mem : ∀ {d : List (String × JVal)} {k : String} {v : JVal},
    lookupKey d k = some v → (k, v) ∈ d
  | [], k, v, h => by simp [lookupKey] at h
  | (k', v') :: d, k, v, h => by
    simp only [lookupKey] at h
    by_cases hk : (k' == k) = true
    · rw [if_pos hk] at h
      cases h
      rw [beq_iff_eq.mp hk]
      exact List.mem_cons_self _ _
    · rw [if_neg hk] at h
      exact List.mem_cons_of_mem _ (lookupKey_some_mem h)

theorem lookupKey_eq_of_mem : ∀ {d : List (String × JVal)}, nodupKeys d →
    ∀ {k : String} {v : JVal}, (k, v) ∈ d → lookupKey d k = some v
  | [], _, k, v, h => absurd h (List.not_mem_nil _)
  | (k', v') :: d, hnd, k, v, h => by
    have hnd' : nodupKeys d ∧ k' ∉ listKeys d := by
      unfold nodupKeys listKeys at hnd ⊢
      rw [List.map_cons, List.nodup_cons] at hnd
      exact ⟨hnd.2, hnd.1⟩
    rcases List.mem_cons.mp h with heq | hmem
    · cases heq
      simp [lookupKey]
    · have hne : k' ≠ k := by
        intro hh
        exact hnd'.2 (hh ▸ (List.mem_map.mpr ⟨(k, v), hmem, rfl⟩))
      have hbne : ¬ ((k' == k) = true) := by simpa using hne
      simp only [lookupKey]
      rw [if_neg hbne]
      exact lookupKey_eq_of_mem hnd'.1 hmem

/-- `argsRD` written as filter-then-map, for permutation reasoning. -/
theorem argsRD_eq_filterMap (defs : List (String × JVal)) (dep : Nat) :
    ∀ (d : List (String × JVal)),
    argsRD defs dep d = (d.filter (fun kv => ! argsDiscard defs kv.1 kv.2 (dep + 1))).map
      (fun kv => (kv.1, if strStarts kv.1 "#" then kv.2 else argsR defs (dep + 1) kv.2))
  | [] => rfl
  | (k, v) :: d => by
    by_cases h : argsDiscard defs k v (dep + 1) = true
    · simp [argsRD, h, List.filter, argsRD_eq_filterMap defs dep d]
    · simp [argsRD, h, List.filter, argsRD_eq_filterMap defs dep d]

theorem keysSortedB_of_chain {α : Type} : ∀ (l : List (String × α)),
    l.Chain' keyLe → keysSortedB l = true
  | [], _ => rfl
  | [_], _ => rfl
  | a :: b :: rest, h => by
    rw [List.chain'_cons] at h
    simp only [keysSortedB, Bool.and_eq_true]
    exact ⟨h.1, keysSortedB_of_chain (b :: rest) h.2⟩

theorem keysSortedB_sortPairs {α : Type} (l : List (String × α)) :
    keysSortedB (sortPairs l) = true :=
  keysSortedB_of_chain _ (sortPairs_sorted l).chain'

theorem dictsSortedToD_iff_mem : ∀ (dep : Nat) (d : List (String × JVal)),
    dictsSortedToD dep d = true ↔
      ∀ kv ∈ d, (strStarts kv.1 "#" || dictsSortedTo (dep + 1) kv.2) = true
  | dep, [] => by simp [dictsSortedToD]
  | dep, (k, v) :: d => by
    simp only [dictsSortedToD, Bool.and_eq_true, dictsSortedToD_iff_mem dep d,
      List.mem_cons]
    constructor
    · rintro ⟨h1, h2⟩ kv (rfl | hm)
      · exact h1
      · exact h2 kv hm
    · intro h
      exact ⟨h (k, v) (Or.inl rfl), fun kv hm => h kv (Or.inr hm)⟩

mutual

theorem argsR_sortedTo (defs : List (String × JVal)) : ∀ (v : JVal) (dep : Nat),
    dictsSortedTo dep (argsR defs dep v) = true
  | v, dep => by
    by_cases hd : dep > 2
    · unfold dictsSortedTo
      rw [if_pos hd]
    · unfold argsR
      rw [if_neg hd]
      cases v with
      | jdict d =>
        unfold dictsSortedTo
        rw [if_neg hd]
        simp only [Bool.and_eq_true]
        refine ⟨keysSortedB_sortPairs _, ?_⟩
        rw [dictsSortedToD_iff_mem]
        intro kv hkv
        have hkv' : kv ∈ argsRD defs dep d := (sortPairs_perm _).subset hkv
        exact argsRD_items defs d dep kv hkv'
      | jlist l =>
        unfold dictsSortedTo
        rw [if_neg hd]
        exact argsRL_sortedTo defs l dep
      | jnull => unfold dictsSortedTo; rw [if_neg hd]
      | jbool b => unfold dictsSortedTo; rw [if_neg hd]
      | jint n => unfold dictsSortedTo; rw [if_neg hd]
      | jstr s => unfold dictsSortedTo; rw [if_neg hd]
      | jlink a b c e f g => unfold dictsSortedTo; rw [if_neg hd]
      | jobj o => unfold dictsSortedTo; rw [if_neg hd]

theorem argsRL_sortedTo (defs : List (String × JVal)) : ∀ (l : List JVal) (dep : Nat),
    dictsSortedToL dep (argsRL defs dep l) = true
  | [], dep => rfl
  | v :: l, dep => by
    simp only [argsRL, dictsSortedToL, Bool.and_eq_true]
    exact ⟨argsR_sortedTo defs v (dep + 1), argsRL_sortedTo defs l dep⟩

theorem argsRD_items (defs : List (String × JVal)) : ∀ (d : List (String × JVal)) (dep : Nat),
    ∀ kv ∈ argsRD defs dep d, (strStarts kv.1 "#" || dictsSortedTo (dep + 1) kv.2) = true
  | [], dep, kv, hm => absurd hm (List.not_mem_nil _)
  | (k, v) :: d, dep, kv, hm => by
    rw [argsRD] at hm
    by_cases hdisc : argsDiscard defs k v (dep + 1) = true
    · rw [if_pos hdisc] at hm
      exact argsRD_items defs d dep kv hm
    · rw [if_neg hdisc] at hm
      rcases List.mem_cons.mp hm with rfl | hm'
      · by_cases hcom : strStarts k "#" = true
        · simp [hcom]
        · simp only [hcom, if_false, Bool.false_or]
          exact argsR_sortedTo defs v (dep + 1)
      · exact argsRD_items defs d dep kv hm'

end

/-- C4 counterexample: the args view of
`{p: {q: {r: {z: 1, a: 2}}}}` leaves the innermost mapping (reached at
depth 3, beyond `max_depth=2`) in insertion order `z, a` — not every
`args_conf` mapping is sorted by key. -/
theorem args_deep_mapping_unsorted :
    argsConf [] [("p", JVal.jdict [("q", JVal.jdict [("r",
        JVal.jdict [("z", JVal.jint 1), ("a", JVal.jint 2)])])])] =
      .jdict [("p", JVal.jdict [("q", JVal.jdict [("r",
        JVal.jdict [("z", JVal.jint 1), ("a", JVal.jint 2)])])])] ∧
    allDictsSorted (argsConf [] [("p", JVal.jdict [("q", JVal.jdict [("r",
        JVal.jdict [("z", JVal.jint 1), ("a", JVal.jint 2)])])])]) = false := by
  constructor
  · decide
  · decide

/-- C4 amended: a depth-1 key declared as a function parameter whose
configured value equals the declared default — directly or after JSON
normalization of both sides — never appears in the args view; and every
mapping the depth-2-bounded rewrite reaches (depth ≤ 2, outside verbatim
comment values) is sorted by key.  Mappings at depth ≥ 3 keep their
insertion order (see `args_deep_mapping_unsorted`). -/
theorem args_view_defaults_and_sorting (defs conf : List (String × JVal)) :
    (∀ (k : String) (v dflt : JVal) (e : List (String × JVal)), nodupKeys conf →
      lookupKey conf k = some v → lookupKey defs k = some dflt →
      (jveq v dflt = true ∨ ((jsonCoerce v).isSome ∧ jsonCoerce v = jsonCoerce dflt)) →
      argsConf defs conf = .jdict e → k ∉ listKeys e) ∧
    dictsSortedTo 0 (argsConf defs conf) = true := by
  constructor
  · intro k v dflt e hnd hlkc hlkd hdef he
    have hshape : argsConf defs conf = .jdict (sortPairs (argsRD defs 0 conf)) := by
      unfold argsConf argsR
      rw [if_neg (by omega)]
    rw [hshape] at he
    cases he
    intro hkmem
    have hk2 : k ∈ listKeys (argsRD defs 0 conf) :=
      ((sortPairs_perm _).map Prod.fst).mem_iff.mp hkmem
    have hkeys : listKeys (argsRD defs 0 conf) =
        listKeys (conf.filter (fun kv => ! argsDiscard defs kv.1 kv.2 (0 + 1))) := by
      rw [argsRD_eq_filterMap]
      simp [listKeys, List.map_map]
    rw [hkeys] at hk2
    simp only [listKeys, List.mem_map] at hk2
    obtain ⟨⟨k1, v1⟩, hmemf, hfst⟩ := hk2
    cases hfst
    rw [List.mem_filter] at hmemf
    obtain ⟨hmem, hkeep⟩ := hmemf
    have hv1 : v1 = v := by
      have := lookupKey_eq_of_mem hnd hmem
      rw [hlkc] at this
      cases this
      rfl
    subst hv1
    have hdisc : argsDiscard defs k1 v1 (0 + 1) = true := by
      unfold argsDiscard
      by_cases h1 : ((0 + 1 == 1 && strStarts k1 "#") || strStarts k1 "_") = true
      · rw [if_pos h1]
      · rw [if_neg h1, if_pos (show ((0 + 1 : Nat) == 1) = true by decide), hlkd]
        rcases hdef with h | ⟨hs, hc⟩
        · simp [h]
        · simp only [hs, hc]
          simp
          exact Or.inr (hc ▸ hs)
    rw [hdisc] at hkeep
    cases hkeep
  · exact argsR_sortedTo defs (.jdict conf) 0

instance {α : Type} (l : List (String × α)) : Decidable (nodupKeys l) :=
  decidable_of_iff ((listKeys l).Nodup) Iff.rfl

/-- Evaluation of `args_view_defaults_and_sorting`: the key `e` whose
value equals the declared default is absent from the args view. -/
theorem args_view_defaults_and_sorting_witness :
    "e" ∉ listKeys (sortPairs (argsRD [("e", JVal.jnull)] 0
      [("a", JVal.jstr "x"), ("e", JVal.jnull)])) :=
  (args_view_defaults_and_sorting [("e", JVal.jnull)]
      [("a", JVal.jstr "x"), ("e", JVal.jnull)]).1
    "e" JVal.jnull JVal.jnull _ (by decide) (by decide) (by decide)
    (Or.inl (by decide)) (by decide)

/-! ## C7: `copy_file` (utils.py:110-131)

The function raises `FileNotFoundError` when the source is missing,
computes `modified` from the two sizes when the destination exists, and
copies (hard-link or copy-and-rename) exactly when `modified`.  Note
utils.py:116: `dst_size = src.lstat().st_size` — the variable named
`dst_size` is read from the **source** file.
-/

/-- Existence and size of a file, the only facts `copy_file` consults. -/
structure FileStat where
  present : Bool
  size : Nat
  deriving DecidableEq

/-- `copy_file` (utils.py:110): returns whether the destination is
written.  The two compared sizes are both read from `src.lstat()`
(utils.py:115-116), faithfully to the source. -/
def copyFileWrites (src dst : FileStat) : Except PyErr Bool :=
  if !src.present then .error (.fileNotFoundError "src") else
  .ok (if dst.present then
        let src_size := src.size
        let dst_size := src.size
        decide (src_size ≠ dst_size)
      else true)

/-- C7: because both sizes are read from the source file, an existing
destination is **never** overwritten — even when the real sizes differ
(source size 1, destination size 2) — while a missing destination is
always copied.  The claim (and the spec's "files are compared by size")
describes the intended dst-size read that utils.py:116 misses. -/
theorem copy_file_never_overwrites :
    copyFileWrites ⟨true, 1⟩ ⟨true, 2⟩ = .ok false ∧
    copyFileWrites ⟨true, 1⟩ ⟨false, 0⟩ = .ok true ∧
    ∀ s d : Nat, copyFileWrites ⟨true, s⟩ ⟨true, d⟩ = .ok false := by
  refine ⟨by decide, by decide, ?_⟩
  intro s d
  simp [copyFileWrites]

/-! ## C8: the link graph (`Graph.add_link`, graph.py:81-93)

`add_link` raises `RecursionError` on a self reference **before** touching
any of the three maps, then registers both endpoints in `_nodes` and the
link in the source's outgoing and the target's incoming adjacency,
keeping insertion order and ignoring duplicates (dict-key semantics).
-/

/-- The data of a `Link` that the graph consults: endpoint node
identities, the parameter name, and `str(link)` for error messages. -/
structure GLink where
  source : String
  target : String
  param : String
  rendered : String
  deriving DecidableEq

/-- The `Graph` (graph.py:64): insertion-ordered node set and adjacency. -/
structure LinkGraph where
  nodes : List String
  outgoing : List (String × List GLink)
  incoming : List (String × List GLink)

/-- Python dict-key insertion: append if absent, keep position if present. -/
def addKey (ns : List String) (n : String) : List String :=
  if n ∈ ns then ns else ns ++ [n]

/-- Insert a link under a key of an adjacency map (`adj[key][link] = None`). -/
def addAdj : List (String × List GLink) → String → GLink → List (String × List GLink)
  | [], key, l => [(key, [l])]
  | (k, ls) :: rest, key, l =>
      if k = key then (k, if l ∈ ls then ls else ls ++ [l]) :: rest
      else (k, ls) :: addAdj rest key l

/-- `Graph.add_link` (graph.py:81). -/
def addLink (g : LinkGraph) (l : GLink) : Except PyErr LinkGraph :=
  if l.source = l.target then
    .error (.recursionError ("Link failed: " ++ l.rendered ++ " (self reference)"))
  else
    .ok { nodes := addKey (addKey g.nodes l.source) l.target,
          outgoing := addAdj g.outgoing l.source l,
          incoming := addAdj g.incoming l.target l }

/-- All links registered in the graph (outgoing and incoming sides). -/
def allLinks (g : LinkGraph) : List GLink :=
  (g.outgoing.flatMap (fun kv => kv.2)) ++ (g.incoming.flatMap (fun kv => kv.2))

theorem addKey_mem_self (ns : List String) (n : String) : n ∈ addKey ns n := by
  unfold addKey
  by_cases h : n ∈ ns
  · rwa [if_pos h]
  · rw [if_neg h]
    simp

theorem addKey_subset (ns : List String) (m : String) : ns ⊆ addKey ns m := by
  unfold addKey
  by_cases h : m ∈ ns
  · rw [if_pos h]
    exact fun x hx => hx
  · rw [if_neg h]
    exact List.subset_append_left _ _

theorem addAdj_mem_self : ∀ (adj : List (String × List GLink)) (key : String) (l : GLink),
    l ∈ (addAdj adj key l).flatMap (fun kv => kv.2)
  | [], key, l => by simp [addAdj]
  | (k, ls) :: rest, key, l => by
    unfold addAdj
    by_cases hk : k = key
    · rw [if_pos hk]
      by_cases hl : l ∈ ls
      · simp [hl]
      · simp [hl]
    · rw [if_neg hk]
      simp only [List.flatMap_cons, List.mem_append]
      exact Or.inr (addAdj_mem_self rest key l)

theorem addAdj_mem_inv : ∀ (adj : List (String × List GLink)) (key : String) (l e : GLink),
    e ∈ (addAdj adj key l).flatMap (fun kv => kv.2) →
      e ∈ adj.flatMap (fun kv => kv.2) ∨ e = l
  | [], key, l, e, h => by
    simp [addAdj] at h
    exact Or.inr h
  | (k, ls) :: rest, key, l, e, h => by
    unfold addAdj at h
    by_cases hk : k = key
    · rw [if_pos hk] at h
      simp only [List.flatMap_cons, List.mem_append] at h ⊢
      by_cases hl : l ∈ ls
      · rw [if_pos hl] at h
        rcases h with h | h
        · exact Or.inl (Or.inl h)
        · exact Or.inl (Or.inr h)
      · rw [if_neg hl] at h
        rcases h with h | h
        · rcases List.mem_append.mp h with h' | h'
          · exact Or.inl (Or.inl h')
          · exact Or.inr (by simpa using h')
        · exact Or.inl (Or.inr h)
    · rw [if_neg hk] at h
      simp only [List.flatMap_cons, List.mem_append] at h ⊢
      rcases h with h | h
      · exact Or.inl (Or.inl h)
      · rcases addAdj_mem_inv rest key l e h with h' | h'
        · exact Or.inl (Or.inr h')
        · exact Or.inr h'

/-- C8: adding a link with `source == target` raises `RecursionError`
before any of the maps is touched; otherwise both endpoints are in the
node set of the resulting graph, the link is registered, and the
invariant that no registered edge is a self edge is preserved. -/
theorem add_link_no_self_edge (g : LinkGraph) (l : GLink) :
    (l.source = l.target →
      addLink g l = .error (.recursionError
        ("Link failed: " ++ l.rendered ++ " (self reference)"))) ∧
    (l.source ≠ l.target → ∃ g', addLink g l = .ok g' ∧
      l.source ∈ g'.nodes ∧ l.target ∈ g'.nodes ∧ l ∈ allLinks g' ∧
      ((∀ e ∈ allLinks g, e.source ≠ e.target) →
        ∀ e ∈ allLinks g', e.source ≠ e.target)) := by
  constructor
  · intro hst
    unfold addLink
    rw [if_pos hst]
  · intro hst
    refine ⟨_, by unfold addLink; rw [if_neg hst], ?_, ?_, ?_, ?_⟩
    · exact addKey_subset _ _ (addKey_mem_self g.nodes l.source)
    · exact addKey_mem_self _ l.target
    · unfold allLinks
      exact List.mem_append.mpr (Or.inl (addAdj_mem_self g.outgoing l.source l))
    · intro hinv e he
      unfold allLinks at he
      rcases List.mem_append.mp he with h | h
      · rcases addAdj_mem_inv g.outgoing l.source l e h with h' | h'
        · exact hinv e (List.mem_append.mpr (Or.inl h'))
        · rw [h']
          exact hst
      · rcases addAdj_mem_inv g.incoming l.target l e h with h' | h'
        · exact hinv e (List.mem_append.mpr (Or.inr h'))
        · rw [h']
          exact hst

/-- Evaluation of `add_link_no_self_edge`: a self link on an empty graph
raises, a proper link is registered with both endpoints present. -/
theorem add_link_no_self_edge_witness :
    addLink ⟨[], [], []⟩ ⟨"a", "a", "x", "@a"⟩ =
      .error (.recursionError "Link failed: @a (self reference)") ∧
    ∃ g', addLink ⟨[], [], []⟩ ⟨"a", "b", "x", "@a"⟩ = .ok g' ∧
      "a" ∈ g'.nodes ∧ "b" ∈ g'.nodes ∧
      (⟨"a", "b", "x", "@a"⟩ : GLink) ∈ allLinks g' ∧
      ((∀ e ∈ allLinks (⟨[], [], []⟩ : LinkGraph), e.source ≠ e.target) →
        ∀ e ∈ allLinks g', e.source ≠ e.target) :=
  ⟨(add_link_no_self_edge ⟨[], [], []⟩ ⟨"a", "a", "x", "@a"⟩).1 rfl,
   (add_link_no_self_edge ⟨[], [], []⟩ ⟨"a", "b", "x", "@a"⟩).2 (by decide)⟩

/-! ## C9: `writelines` / `readlines` (utils.py:283-298)

`writelines` joins the lines with a single `'\n'` **between** them (no
trailing newline).  `readlines` opens the file in text mode — universal
newlines: `'\n'`, `'\r'` and `'\r\n'` all terminate a line — iterates the
lines (terminators included) and yields `line.rstrip()`, which strips all
trailing whitespace.  On POSIX, writing translates nothing.
-/

/-- Python whitespace (the ASCII part relevant to `str.rstrip()`). -/
def isPySpace (c : Char) : Bool :=
  c = ' ' || c = '\t' || c = '\n' || c = '\r' || c.toNat = 11 || c.toNat = 12

/-- Python `line.rstrip()`. -/
def rstrip (cs : List Char) : List Char :=
  (cs.reverse.dropWhile isPySpace).reverse

/-- Text-mode line iteration with universal newlines: split after each
`'\n'`, `'\r'` or `'\r\n'`, translating the terminator to `'\n'`; a final
segment without terminator is its own line; an empty file yields no
lines.  `acc` holds the current line so far (reversed); `prevCr` records
that the previous character was a `'\r'` whose line break was already
emitted, so that a directly following `'\n'` is part of the same break. -/
def pyLinesAux (prevCr : Bool) (acc : List Char) : List Char → List (List Char)
  | [] => if acc.isEmpty then [] else [acc.reverse]
  | c :: cs =>
      if c = '\n' then
        if prevCr then pyLinesAux false acc cs
        else (acc.reverse ++ ['\n']) :: pyLinesAux false [] cs
      else if c = '\r' then (acc.reverse ++ ['\n']) :: pyLinesAux true [] cs
      else pyLinesAux false (c :: acc) cs

/-- `readlines` (utils.py:283) with `skip_rows=0`, on the file content. -/
def readlinesM (content : List Char) : List (List Char) :=
  (pyLinesAux false [] content).map rstrip

/-- `writelines` (utils.py:291): the file content produced for the lines. -/
def writelinesM : List (List Char) → List Char
  | [] => []
  | [l] => l
  | l :: ls => l ++ '\n' :: writelinesM ls

theorem pyLinesAux_newline : ∀ (l : List Char) (acc rest : List Char),
    '\n' ∉ l → '\r' ∉ l →
    pyLinesAux false acc (l ++ '\n' :: rest) =
      ((acc.reverse ++ l) ++ ['\n']) :: pyLinesAux false [] rest
  | [], acc, rest, _, _ => by
    rw [List.nil_append, pyLinesAux, if_pos rfl, if_neg (by simp)]
    simp
  | c :: l, acc, rest, hn, hr => by
    have hcn : ¬ c = '\n' := fun h => hn (h ▸ List.mem_cons_self c l)
    have hcr : ¬ c = '\r' := fun h => hr (h ▸ List.mem_cons_self c l)
    show pyLinesAux false acc (c :: (l ++ '\n' :: rest)) = _
    rw [pyLinesAux, if_neg hcn, if_neg hcr,
      pyLinesAux_newline l (c :: acc) rest (fun h => hn (List.mem_cons_of_mem c h))
        (fun h => hr (List.mem_cons_of_mem c h))]
    simp

theorem pyLinesAux_noNewline : ∀ (l : List Char) (acc : List Char),
    '\n' ∉ l → '\r' ∉ l →
    pyLinesAux false acc l =
      if (acc.reverse ++ l).isEmpty then [] else [acc.reverse ++ l]
  | [], acc, _, _ => by
    rw [pyLinesAux]
    cases acc <;> simp
  | c :: l, acc, hn, hr => by
    have hcn : ¬ c = '\n' := fun h => hn (h ▸ List.mem_cons_self c l)
    have hcr : ¬ c = '\r' := fun h => hr (h ▸ List.mem_cons_self c l)
    rw [pyLinesAux, if_neg hcn, if_neg hcr,
      pyLinesAux_noNewline l (c :: acc) (fun h => hn (List.mem_cons_of_mem c h))
        (fun h => hr (List.mem_cons_of_mem c h))]
    simp

theorem rstrip_append_newline (l : List Char) : rstrip (l ++ ['\n']) = rstrip l := by
  unfold rstrip
  rw [List.reverse_append]
  simp [List.dropWhile, isPySpace]

/-- C9 counterexample: the one-element list `[""]` is non-empty, its
element has no newline characters and no trailing whitespace, yet writing
it produces an empty file, which reads back as **zero** lines. -/
theorem writelines_empty_last_line_lost :
    ([([] : List Char)] ≠ []) ∧
    (∀ l ∈ [([] : List Char)], ('\n' ∉ l ∧ '\r' ∉ l) ∧ rstrip l = l) ∧
    readlinesM (writelinesM [([] : List Char)]) = [] := by
  refine ⟨by decide, by decide, by decide⟩

/-- C9 amended: for every non-empty list of lines that contain no newline
characters (`'\n'`, `'\r'`) and no trailing whitespace, **and whose last
line is non-empty**, writing with `writelines` and reading back with
`readlines` yields exactly the original list (a trailing empty line has
no representation in the format; see `writelines_empty_last_line_lost`). -/
theorem readlines_writelines_roundtrip : ∀ (lines : List (List Char)),
    lines ≠ [] →
    (∀ l ∈ lines, ('\n' ∉ l ∧ '\r' ∉ l) ∧ rstrip l = l) →
    lines.getLast? ≠ some [] →
    readlinesM (writelinesM lines) = lines
  | [], hne, _, _ => absurd rfl hne
  | [l], _, hok, hlast => by
    obtain ⟨⟨hn, hr⟩, hs⟩ := hok l (List.mem_cons_self _ _)
    have hle : l ≠ [] := by
      intro h
      exact hlast (by rw [h]; rfl)
    unfold writelinesM readlinesM
    rw [pyLinesAux_noNewline l [] hn hr]
    simp only [List.reverse_nil, List.nil_append]
    rw [if_neg (by simpa using hle)]
    simp [hs]
  | l :: m :: rest, _, hok, hlast => by
    obtain ⟨⟨hn, hr⟩, hs⟩ := hok l (List.mem_cons_self _ _)
    have htail : readlinesM (writelinesM (m :: rest)) = m :: rest :=
      readlines_writelines_roundtrip (m :: rest) (by simp)
        (fun x hx => hok x (List.mem_cons_of_mem l hx))
        (by rwa [List.getLast?_cons_cons] at hlast)
    show readlinesM (l ++ '\n' :: writelinesM (m :: rest)) = l :: m :: rest
    unfold readlinesM
    rw [pyLinesAux_newline l [] _ hn hr]
    simp only [List.reverse_nil, List.nil_append, List.map_cons]
    rw [rstrip_append_newline, hs]
    unfold readlinesM at htail
    rw [htail]

/-- Evaluation of `readlines_writelines_roundtrip` at `["ab", "c"]`. -/
theorem readlines_writelines_roundtrip_witness :
    readlinesM (writelinesM [['a', 'b'], ['c']]) = [['a', 'b'], ['c']] :=
  readlines_writelines_roundtrip [['a', 'b'], ['c']] (by decide) (by decide) (by decide)

/-! ## C6: argument splitting and the call-failure wrapper

`Func` (func.py:143) keeps a function's ordered parameter list with kinds
and defaults.  `Func.call` (func.py:165) splits the given arguments with
`_split_args` (func.py:35) and raises
`TypeError(f'{name}() is missing arguments: {missing}')` when required
parameters are unbound; `Node._call_node` (node.py:476) wraps any
exception of the call as `FlowError(f'call failed: {node!r}')` with the
original as cause — except the read-only refusal, raised before the `try`.
Type-hint coercion (func.py:178-192) applies only to annotated
parameters; the functions exercised here carry no annotations, so it is
the identity.
-/

/-- Python parameter kinds (`inspect.Parameter`). -/
inductive PKind where
  | posOnly : PKind
  | posOrKw : PKind
  | varPos : PKind
  | kwOnly : PKind
  | varKw : PKind
  deriving DecidableEq

/-- One parameter of a signature: name, kind, optional default. -/
structure Param where
  name : String
  kind : PKind
  dflt : Option JVal
  deriving DecidableEq

/-- `_func_defs` (func.py:29): the defaults, in parameter order. -/
def funcDefs (sig : List Param) : List (String × JVal) :=
  sig.filterMap (fun p => p.dflt.map (fun d => (p.name, d)))

/-- The names of `_func_pars` (func.py:23): all parameters except `**kwargs`. -/
def parNames (sig : List Param) : List String :=
  (sig.filter (fun p => ! (p.kind = .varKw))).map (fun p => p.name)

/-- Index of a parameter name in the signature, `-1` when absent
(`param_idcs.get(k, -1)`, func.py:44,58). -/
def paramIdx (sig : List Param) (k : String) : Int :=
  match sig.findIdx? (fun p => p.name == k) with
  | some i => (i : Int)
  | none => -1

/-- `type(v)` as rendered in the varargs error message. -/
def pyTypeName : JVal → String
  | .jnull => "<class 'NoneType'>"
  | .jbool _ => "<class 'bool'>"
  | .jint _ => "<class 'int'>"
  | .jstr _ => "<class 'str'>"
  | .jlist _ => "<class 'list'>"
  | .jdict _ => "<class 'dict'>"
  | .jlink _ _ _ _ _ _ => "<class 'flowfish.link.Link'>"
  | .jobj _ => "<class 'object'>"

/-- The `*args` loop of `_split_args` (func.py:50-54): positions below the
number of positional parameters bind `param_list[i]` by name; the first
position at or beyond it puts the remaining arguments into `var_args`
under `param_list[i].name` and stops.  Indexing past the parameter list
raises `IndexError`. -/
def readArgsLoop (sig : List Param) (nPos : Nat) :
    Nat → List JVal → Except PyErr (List (String × JVal) × List (String × List JVal))
  | _, [] => .ok ([], [])
  | i, v :: rest =>
      match sig.get? i with
      | none => .error (.indexError "tuple index out of range")
      | some p =>
          if i < nPos then
            match readArgsLoop sig nPos (i + 1) rest with
            | .ok (ps, vs) => .ok ((p.name, v) :: ps, vs)
            | .error e => .error e
          else .ok ([], [(p.name, v :: rest)])

/-- The `**kwargs` loop of `_split_args` (func.py:58-74), over the items
sorted by parameter index: positional parameters fill `pos_args` unless
already set, a `*args` parameter accepts only a list/tuple, everything
else lands in `key_args`. -/
def kwargsLoop (sig : List Param) :
    List (String × JVal) → List (String × JVal) → List (String × List JVal) →
    List (String × JVal) →
    Except PyErr (List (String × JVal) × List (String × List JVal) × List (String × JVal))
  | [], pos, var, key => .ok (pos, var, key)
  | (k, v) :: rest, pos, var, key =>
      match sig.find? (fun p => p.name == k) with
      | some p =>
          if p.kind = .posOrKw || p.kind = .posOnly then
            if (lookupKey pos k).isSome then kwargsLoop sig rest pos var key
            else kwargsLoop sig rest (pos ++ [(k, v)]) var key
          else if p.kind = .varPos then
            if (var.find? (fun kv => kv.1 == k)).isSome then kwargsLoop sig rest pos var key
            else match v with
              | .jlist l => kwargsLoop sig rest pos (var ++ [(k, l)]) key
              | w => .error (.typeError ("Invalid varargs: " ++ pyTypeName w ++ " (must be list)"))
          else kwargsLoop sig rest pos var (key ++ [(k, v)])
      | none => kwargsLoop sig rest pos var (key ++ [(k, v)])

/-- The missing-argument check of `_split_args` (func.py:77-83), in
parameter order. -/
def missingArgs (sig : List Param) (pos key : List (String × JVal)) : List String :=
  sig.filterMap (fun p =>
    if p.kind = .posOrKw || p.kind = .posOnly then
      if (lookupKey pos p.name).isNone then some p.name else none
    else if p.kind = .kwOnly then
      if p.dflt.isNone && (lookupKey key p.name).isNone then some p.name else none
    else none)

/-- `_split_args` (func.py:35): positional, variadic and keyword
arguments, plus the missing required names. -/
def splitArgs (sig : List Param) (args : List JVal) (kwargs : List (String × JVal)) :
    Except PyErr
      (List (String × JVal) × List (String × List JVal) × List (String × JVal) × List String) :=
  let nPos := (sig.filter (fun p => p.kind = .posOrKw || p.kind = .posOnly)).length
  match readArgsLoop sig nPos 0 args with
  | .error e => .error e
  | .ok (pos, var) =>
      let sorted := kwargs.insertionSort (fun a b => paramIdx sig a.1 ≤ paramIdx sig b.1)
      match kwargsLoop sig sorted pos var [] with
      | .error e => .error e
      | .ok (pos, var, key) => .ok (pos, var, key, missingArgs sig pos key)

/-- Python `repr` of a list of strings, as interpolated into the
missing-arguments message. -/
def pyListRepr (l : List String) : String :=
  "[" ++ String.intercalate ", " (l.map (fun s => "'" ++ s ++ "'")) ++ "]"

/-- `Func.call` (func.py:165-208) up to the invocation itself: the final
positional values, variadic values and keyword arguments passed to the
function, or the raised error.  `missing ≠ []` raises `TypeError`; a
`'*'` entry of `key_args` moves to `var_args` (func.py:174). -/
def funcCall (name : String) (sig : List Param) (args : List JVal)
    (kwargs : List (String × JVal)) :
    Except PyErr (List JVal × List JVal × List (String × JVal)) :=
  match splitArgs sig args kwargs with
  | .error e => .error e
  | .ok (pos, var, key, missing) =>
      if missing ≠ [] then
        .error (.typeError (name ++ "() is missing arguments: " ++ pyListRepr missing))
      else
        let starred := lookupKey key "*"
        let var : List (String × List JVal) := match starred with
          | some (.jlist l) => [("*", l)]
          | some v => [("*", [v])]
          | none => var
        let key := match starred with
          | some _ => key.filter (fun kv => ! (kv.1 == "*"))
          | none => key
        match var with
        | [] => .ok (pos.map (fun kv => kv.2), [], key)
        | (_, vs) :: _ => .ok (pos.map (fun kv => kv.2), vs, key)

/-- `Node._call_node` (node.py:476-499): the read-only refusal is raised
before the `try` block and is not wrapped; any error of the call itself
is re-raised as `FlowError('call failed: {node!r}')` with the original
error as cause. -/
def callNode {α : Type} (readonly dumpable dumped : Bool) (nodeRepr : String)
    (inner : Except PyErr α) : Except PyErr α :=
  if dumpable && !dumped && readonly then
    .error (.flowError ("node read-only: " ++ nodeRepr))
  else match inner with
    | .ok v => .ok v
    | .error e => .error (.flowErrorFrom ("call failed: " ++ nodeRepr) e)

/-! ## The node view and the call view

`RewriteNodeConf` (conf.py:143) extends the configuration with the
function's declared defaults (`{**self.func_defs, **v}` at depth 0) and
drops depth-1 comment keys that shadow a declared default.
`RewriteCallConf` (conf.py:245) produces the mapping passed to the
function: depth-1 comment keys and underscore keys that are not declared
parameters are dropped (`_type.*` keys are kept and drive per-field
coercion at depth 0), escaped literals `@@`/`&&`/`$$` lose their first
character, `$NAME` at depth 1 substitutes the environment (KeyError when
unset), `~` at depth 1 expands the home directory, and links resolve
against the computed node values.  The environment, the home-directory
expansion, the coercion functions and the link resolution are external
effects, passed as parameters.
-/

/-- Python dict merge `{**a, **b}`: keys of `a` in order (values from `b`
where present), then the keys only `b` has. -/
def mergeDicts (a b : List (String × JVal)) : List (String × JVal) :=
  (a.map (fun kv => (kv.1, match lookupKey b kv.1 with | some v => v | none => kv.2)))
    ++ b.filter (fun kv => (lookupKey a kv.1).isNone)

/-- `RewriteNodeConf(func_defs).rewrite` (conf.py:143): the node conf. -/
def nodeR (defs conf : List (String × JVal)) : List (String × JVal) :=
  mergeDicts defs (conf.filter (fun kv =>
    ! (strStarts kv.1 "#" && (lookupKey defs (String.mk (kv.1.data.drop 1))).isSome)))

/-- `RewriteCallConf.discard_item` (conf.py:254). -/
def callDiscard (pars : List String) (k : String) (depth : Nat) : Bool :=
  if depth == 1 then
    if strStarts k "_type." then false
    else strStarts k "#" || (strStarts k "_" && ! (pars.contains k))
  else false

/-- ASCII `\w`. -/
def isWordChar (c : Char) : Bool :=
  (97 ≤ c.toNat && c.toNat ≤ 122) || (65 ≤ c.toNat && c.toNat ≤ 90) ||
    (48 ≤ c.toNat && c.toNat ≤ 57) || c = '_'

/-- `RewriteCallConf.rewrite_str` (conf.py:287-300). -/
def callRStr (env : String → Option String) (expandUser : String → String)
    (depth : Nat) (s : String) : Except PyErr JVal :=
  if depth ≤ 2 && (strStarts s "@@" || strStarts s "&&" || strStarts s "$$")
      && decide (3 ≤ s.data.length) then
    .ok (.jstr (String.mk (s.data.drop 1)))
  else if depth == 1 && strStarts s "$" then
    let w := (s.data.drop 1).takeWhile isWordChar
    if w.isEmpty then .ok (.jstr s)
    else match env (String.mk w) with
      | some val => .ok (.jstr (val ++ String.mk (s.data.drop (1 + w.length))))
      | none => .error (.keyError (String.mk w))
  else if depth == 1 && strStarts s "~" then .ok (.jstr (expandUser s))
  else .ok (.jstr s)

/-- The `_type.*` collection and per-field coercion of
`RewriteCallConf.rewrite_dict` at depth 0 (conf.py:264-285). -/
def callRTypes (coerceFn : JVal → JVal → Except PyErr JVal)
    (d : List (String × JVal)) : Except PyErr (List (String × JVal)) :=
  let types := d.filterMap (fun kv =>
    if strStarts kv.1 "_type." then some (String.mk (kv.1.data.drop 6), kv.2) else none)
  let rest := d.filter (fun kv => ! strStarts kv.1 "_type.")
  if types.isEmpty then .ok rest
  else rest.mapM (fun kv =>
    match lookupKey types kv.1 with
    | some t => (coerceFn t kv.2).map (fun v => (kv.1, v))
    | none => .ok kv)

mutual

/-- `RewriteCallConf(funcs, func_pars, node_vals).rewrite` at a depth;
above `max_depth=2` the value is returned untouched. -/
def callR (env : String → Option String) (expandUser : String → String)
    (coerceFn : JVal → JVal → Except PyErr JVal)
    (resolveLink : JVal → Except PyErr JVal)
    (pars : List String) (depth : Nat) (v : JVal) : Except PyErr JVal :=
  if depth > 2 then .ok v
  else match v with
    | .jstr s => callRStr env expandUser depth s
    | .jdict d =>
        match callRD env expandUser coerceFn resolveLink pars depth d with
        | .error e => .error e
        | .ok d' => if depth == 0 then (callRTypes coerceFn d').map .jdict else .ok (.jdict d')
    | .jlist l =>
        match callRL env expandUser coerceFn resolveLink pars depth l with
        | .error e => .error e
        | .ok l' => .ok (.jlist l')
    | .jlink kind isSelf slug sfx rendered objHash =>
        resolveLink (.jlink kind isSelf slug sfx rendered objHash)
    | w => .ok w

def callRL (env : String → Option String) (expandUser : String → String)
    (coerceFn : JVal → JVal → Except PyErr JVal)
    (resolveLink : JVal → Except PyErr JVal)
    (pars : List String) (depth : Nat) : List JVal → Except PyErr (List JVal)
  | [] => .ok []
  | v :: l =>
      match callR env expandUser coerceFn resolveLink pars (depth + 1) v with
      | .error e => .error e
      | .ok v' =>
          match callRL env expandUser coerceFn resolveLink pars depth l with
          | .error e => .error e
          | .ok l' => .ok (v' :: l')

def callRD (env : String → Option String) (expandUser : String → String)
    (coerceFn : JVal → JVal → Except PyErr JVal)
    (resolveLink : JVal → Except PyErr JVal)
    (pars : List String) (depth : Nat) :
    List (String × JVal) → Except PyErr (List (String × JVal))
  | [] => .ok []
  | (k, v) :: d =>
      if callDiscard pars k (depth + 1) then
        callRD env expandUser coerceFn resolveLink pars depth d
      else
        match (if strStarts k "#" then .ok v
               else callR env expandUser coerceFn resolveLink pars (depth + 1) v) with
        | .error e => .error e
        | .ok v' =>
            match callRD env expandUser coerceFn resolveLink pars depth d with
            | .error e => .error e
            | .ok d' => .ok ((k, v') :: d')

end

/-- The parameter list of `test.function.foo`
(`def foo(a, b, *c, d, e=None, **kwargs)`, tests/test/function.py:6). -/
def fooSig : List Param :=
  [⟨"a", .posOrKw, none⟩, ⟨"b", .posOrKw, none⟩, ⟨"c", .varPos, none⟩,
   ⟨"d", .kwOnly, none⟩, ⟨"e", .kwOnly, some .jnull⟩, ⟨"kwargs", .varKw, none⟩]

/-- C6: for the configuration `{test: {foo@test.function.foo: {a: "a",
d: "d"}}}`, calling `test.foo()` runs the node conf through the call view
and `Func.call`, which finds the required parameter `b` unbound and
raises `TypeError("test.function.foo() is missing arguments: ['b']")`;
`_call_node` wraps it as `FlowError('call failed: …')` with that error as
cause — and in general every error of the inner call is wrapped this way
with the original as cause. -/
theorem call_missing_args_flowerror :
    (∀ (env : String → Option String) (eu : String → String)
        (cf : JVal → JVal → Except PyErr JVal) (rl : JVal → Except PyErr JVal),
      callNode false false false "test.foo[test.function.foo]"
        (match callR env eu cf rl (parNames fooSig) 0
            (.jdict (nodeR (funcDefs fooSig)
              [("a", .jstr "a"), ("d", .jstr "d"), ("_base", .jstr "foo"),
               ("_func", .jstr "test.function.foo"), ("_root", .jbool true)])) with
          | .ok (.jdict cc) => funcCall "test.function.foo" fooSig [] cc
          | .ok _ => .error (.typeError "call conf is not a mapping")
          | .error e => .error e) =
        .error (.flowErrorFrom "call failed: test.foo[test.function.foo]"
          (.typeError "test.function.foo() is missing arguments: ['b']"))) ∧
    (∀ (rn : String) (e : PyErr),
      callNode (α := Unit) false false false rn (.error e) =
        .error (.flowErrorFrom ("call failed: " ++ rn) e)) := by
  constructor
  · intro env eu cf rl
    rfl
  · intro rn e
    rfl

/-! ## C10: `Node.args` / `Node.conf` return deep copies (node.py:223-231)

Python objects live in a heap; a dict holds references.  The heap is a
list of address/object bindings where a new binding for an address
shadows the old one (mutation).  `copy.deepcopy` builds a structurally
equal object graph entirely at fresh addresses, modelled by `allocV` of
the tree readout.  Mutating any address at or above the allocation
frontier — in particular any address of the copy — cannot change what is
read from the original root.
-/

/-- A heap object: immutable scalar, dict of references, list of references. -/
inductive PObj where
  | pscalar (v : JVal) : PObj
  | pdict (entries : List (String × Nat)) : PObj
  | plist (items : List Nat) : PObj
  deriving DecidableEq

/-- The heap: newest binding first; binding an address again shadows it. -/
abbrev Store := List (Nat × PObj)

def lookupAddr : Store → Nat → Option PObj
  | [], _ => none
  | (a, o) :: s, b => if a == b then some o else lookupAddr s b

mutual

/-- Read the value tree rooted at an address (`fuel` bounds the depth;
every recursive call consumes one unit). -/
def readV : Nat → Store → Nat → Option JVal
  | 0, _, _ => none
  | fuel + 1, s, a =>
      match lookupAddr s a with
      | some (.pscalar v) => some v
      | some (.pdict es) =>
          match readD fuel s es with
          | some kvs => some (.jdict kvs)
          | none => none
      | some (.plist rs) =>
          match readL fuel s rs with
          | some vs => some (.jlist vs)
          | none => none
      | none => none

def readD : Nat → Store → List (String × Nat) → Option (List (String × JVal))
  | 0, _, _ => none
  | _ + 1, _, [] => some []
  | fuel + 1, s, (k, r) :: es =>
      match readV fuel s r, readD fuel s es with
      | some v, some kvs => some ((k, v) :: kvs)
      | _, _ => none

def readL : Nat → Store → List Nat → Option (List JVal)
  | 0, _, _ => none
  | _ + 1, _, [] => some []
  | fuel + 1, s, r :: rs =>
      match readV fuel s r, readL fuel s rs with
      | some v, some vs => some (v :: vs)
      | _, _ => none

end

mutual

/-- Allocate the object graph of a value at fresh addresses starting at
`f`: returns the extended heap, the root address and the next fresh
address.  This is `copy.deepcopy` applied to a tree-shaped value. -/
def allocV : JVal → Store → Nat → Store × Nat × Nat
  | .jdict d, s, f =>
      match allocD d s f with
      | (s', es, f') => ((f', .pdict es) :: s', f', f' + 1)
  | .jlist l, s, f =>
      match allocL l s f with
      | (s', rs, f') => ((f', .plist rs) :: s', f', f' + 1)
  | v, s, f => ((f, .pscalar v) :: s, f, f + 1)

def allocD : List (String × JVal) → Store → Nat → Store × List (String × Nat) × Nat
  | [], s, f => (s, [], f)
  | (k, v) :: d, s, f =>
      match allocV v s f with
      | (s', a, f') =>
          match allocD d s' f' with
          | (s'', es, f'') => (s'', (k, a) :: es, f'')

def allocL : List JVal → Store → Nat → Store × List Nat × Nat
  | [], s, f => (s, [], f)
  | v :: l, s, f =>
      match allocV v s f with
      | (s', a, f') =>
          match allocL l s' f' with
          | (s'', rs, f'') => (s'', a :: rs, f'')

end

/-- All references held by a heap object lie below `f`. -/
def objBound : PObj → Nat → Bool
  | .pscalar _, _ => true
  | .pdict es, f => es.all (fun kv => kv.2 < f)
  | .plist rs, f => rs.all (fun r => r < f)

/-- Every binding of the heap has its address and all its references
below `f`: `f` is a fresh frontier. -/
def storeBound (s : Store) (f : Nat) : Bool :=
  s.all (fun p => decide (p.1 < f) && objBound p.2 f)

theorem lookupAddr_append_low (pre s : Store) (f r : Nat)
    (hpre : ∀ p ∈ pre, f ≤ p.1) (hr : r < f) :
    lookupAddr (pre ++ s) r = lookupAddr s r := by
  induction pre with
  | nil => rfl
  | cons p rest ih =>
      obtain ⟨a, o⟩ := p
      have ha : f ≤ a := hpre (a, o) (List.mem_cons_self _ _)
      have hne : (a == r) = false := by
        simp only [beq_eq_false_iff_ne, ne_eq]
        omega
      rw [List.cons_append]
      show (if (a == r) = true then some o else lookupAddr (rest ++ s) r) = _
      rw [if_neg (by simp [hne]), ih (fun q hq => hpre q (List.mem_cons_of_mem _ hq))]

theorem storeBound_spec {s : Store} {f : Nat} (h : storeBound s f = true) :
    ∀ p ∈ s, p.1 < f ∧ objBound p.2 f = true := by
  intro p hp
  have := (List.all_eq_true.mp h) p hp
  constructor
  · exact of_decide_eq_true (Bool.and_elim_left this)
  · exact Bool.and_elim_right this

theorem lookupAddr_mem {s : Store} {r : Nat} {o : PObj}
    (h : lookupAddr s r = some o) : (r, o) ∈ s := by
  induction s with
  | nil => simp [lookupAddr] at h
  | cons p rest ih =>
      obtain ⟨a, b⟩ := p
      by_cases hab : (a == r) = true
      · rw [show lookupAddr ((a, b) :: rest) r
              = (if (a == r) = true then some b else lookupAddr rest r) from rfl,
            if_pos hab] at h
        cases h
        have : a = r := by simpa using hab
        subst this
        exact List.mem_cons_self _ _
      · rw [show lookupAddr ((a, b) :: rest) r
              = (if (a == r) = true then some b else lookupAddr rest r) from rfl,
            if_neg hab] at h
        exact List.mem_cons_of_mem _ (ih h)

mutual

theorem readV_frame (fuel : Nat) (pre s : Store) (f : Nat)
    (hpre : ∀ p ∈ pre, f ≤ p.1) (hs : storeBound s f = true) :
    ∀ r < f, readV fuel (pre ++ s) r = readV fuel s r := by
  match fuel with
  | 0 => intro r _; rfl
  | fuel + 1 =>
      intro r hr
      have hlk : lookupAddr (pre ++ s) r = lookupAddr s r :=
        lookupAddr_append_low pre s f r hpre hr
      show (match lookupAddr (pre ++ s) r with
            | some (.pscalar v) => some v
            | some (.pdict es) =>
                match readD fuel (pre ++ s) es with
                | some kvs => some (.jdict kvs)
                | none => none
            | some (.plist rs) =>
                match readL fuel (pre ++ s) rs with
                | some vs => some (.jlist vs)
                | none => none
            | none => none)
          = (match lookupAddr s r with
            | some (.pscalar v) => some v
            | some (.pdict es) =>
                match readD fuel s es with
                | some kvs => some (.jdict kvs)
                | none => none
            | some (.plist rs) =>
                match readL fuel s rs with
                | some vs => some (.jlist vs)
                | none => none
            | none => none)
      rw [hlk]
      match hcase : lookupAddr s r with
      | none => rfl
      | some (.pscalar v) => rfl
      | some (.pdict es) =>
          have hmem := lookupAddr_mem hcase
          have hob : objBound (.pdict es) f = true := (storeBound_spec hs _ hmem).2
          have hes : ∀ kv ∈ es, kv.2 < f := by
            intro kv hkv
            exact of_decide_eq_true ((List.all_eq_true.mp hob) kv hkv)
          show (match readD fuel (pre ++ s) es with
                | some kvs => some (JVal.jdict kvs)
                | none => none)
              = (match readD fuel s es with
                | some kvs => some (JVal.jdict kvs)
                | none => none)
          rw [readD_frame fuel pre s f hpre hs es hes]
      | some (.plist rs) =>
          have hmem := lookupAddr_mem hcase
          have hob : objBound (.plist rs) f = true := (storeBound_spec hs _ hmem).2
          have hxs : ∀ x ∈ rs, x < f := by
            intro x hx
            exact of_decide_eq_true ((List.all_eq_true.mp hob) x hx)
          show (match readL fuel (pre ++ s) rs with
                | some vs => some (JVal.jlist vs)
                | none => none)
              = (match readL fuel s rs with
                | some vs => some (JVal.jlist vs)
                | none => none)
          rw [readL_frame fuel pre s f hpre hs rs hxs]

theorem readD_frame (fuel : Nat) (pre s : Store) (f : Nat)
    (hpre : ∀ p ∈ pre, f ≤ p.1) (hs : storeBound s f = true) :
    ∀ es : List (String × Nat), (∀ kv ∈ es, kv.2 < f) →
      readD fuel (pre ++ s) es = readD fuel s es := by
  match fuel with
  | 0 => intro es _; rfl
  | fuel + 1 =>
      intro es hes
      match es with
      | [] => rfl
      | (k, r) :: rest =>
          have hr : r < f := hes (k, r) (List.mem_cons_self _ _)
          have hrest : ∀ kv ∈ rest, kv.2 < f :=
            fun kv hkv => hes kv (List.mem_cons_of_mem _ hkv)
          show (match readV fuel (pre ++ s) r, readD fuel (pre ++ s) rest with
                | some v, some kvs => some ((k, v) :: kvs)
                | _, _ => none)
              = (match readV fuel s r, readD fuel s rest with
                | some v, some kvs => some ((k, v) :: kvs)
                | _, _ => none)
          rw [readV_frame fuel pre s f hpre hs r hr,
              readD_frame fuel pre s f hpre hs rest hrest]

theorem readL_frame (fuel : Nat) (pre s : Store) (f : Nat)
    (hpre : ∀ p ∈ pre, f ≤ p.1) (hs : storeBound s f = true) :
    ∀ rs : List Nat, (∀ x ∈ rs, x < f) →
      readL fuel (pre ++ s) rs = readL fuel s rs := by
  match fuel with
  | 0 => intro rs _; rfl
  | fuel + 1 =>
      intro rs hrs
      match rs with
      | [] => rfl
      | r :: rest =>
          have hr : r < f := hrs r (List.mem_cons_self _ _)
          have hrest : ∀ x ∈ rest, x < f :=
            fun x hx => hrs x (List.mem_cons_of_mem _ hx)
          show (match readV fuel (pre ++ s) r, readL fuel (pre ++ s) rest with
                | some v, some vs => some (v :: vs)
                | _, _ => none)
              = (match readV fuel s r, readL fuel s rest with
                | some v, some vs => some (v :: vs)
                | _, _ => none)
          rw [readV_frame fuel pre s f hpre hs r hr,
              readL_frame fuel pre s f hpre hs rest hrest]

end

mutual

theorem allocV_fresh (v : JVal) (s : Store) (f : Nat) :
    ∃ pre, (allocV v s f).1 = pre ++ s ∧ (∀ p ∈ pre, f ≤ p.1) ∧
      f ≤ (allocV v s f).2.1 ∧ f < (allocV v s f).2.2 := by
  match v with
  | .jdict d =>
      obtain ⟨pre, h1, h2, h3⟩ := allocD_fresh d s f
      rcases heq : allocD d s f with ⟨s', es, f'⟩
      rw [heq] at h1 h3
      have h1x : s' = pre ++ s := h1
      have h3x : f ≤ f' := h3
      have hav : allocV (.jdict d) s f = ((f', PObj.pdict es) :: s', f', f' + 1) := by
        simp only [allocV, heq]
      rw [hav]
      refine ⟨(f', .pdict es) :: pre, ?_, ?_, ?_, ?_⟩
      · show (f', PObj.pdict es) :: s' = (f', PObj.pdict es) :: pre ++ s
        rw [h1x, List.cons_append]
      · intro p hp
        rcases List.mem_cons.mp hp with h | h
        · subst h; exact h3x
        · exact h2 p h
      · exact h3x
      · exact Nat.lt_succ_of_le h3x
  | .jlist l =>
      obtain ⟨pre, h1, h2, h3⟩ := allocL_fresh l s f
      rcases heq : allocL l s f with ⟨s', rs, f'⟩
      rw [heq] at h1 h3
      have h1x : s' = pre ++ s := h1
      have h3x : f ≤ f' := h3
      have hav : allocV (.jlist l) s f = ((f', PObj.plist rs) :: s', f', f' + 1) := by
        simp only [allocV, heq]
      rw [hav]
      refine ⟨(f', .plist rs) :: pre, ?_, ?_, ?_, ?_⟩
      · show (f', PObj.plist rs) :: s' = (f', PObj.plist rs) :: pre ++ s
        rw [h1x, List.cons_append]
      · intro p hp
        rcases List.mem_cons.mp hp with h | h
        · subst h; exact h3x
        · exact h2 p h
      · exact h3x
      · exact Nat.lt_succ_of_le h3x
  | .jnull => exact ⟨[(f, .pscalar .jnull)], rfl, by simp, Nat.le_refl f, Nat.lt_succ_self f⟩
  | .jbool b => exact ⟨[(f, .pscalar (.jbool b))], rfl, by simp, Nat.le_refl f, Nat.lt_succ_self f⟩
  | .jint n => exact ⟨[(f, .pscalar (.jint n))], rfl, by simp, Nat.le_refl f, Nat.lt_succ_self f⟩
  | .jstr t => exact ⟨[(f, .pscalar (.jstr t))], rfl, by simp, Nat.le_refl f, Nat.lt_succ_self f⟩
  | .jlink k i sl sf rd oh =>
      exact ⟨[(f, .pscalar (.jlink k i sl sf rd oh))], rfl, by simp,
        Nat.le_refl f, Nat.lt_succ_self f⟩
  | .jobj oh =>
      exact ⟨[(f, .pscalar (.jobj oh))], rfl, by simp, Nat.le_refl f, Nat.lt_succ_self f⟩

theorem allocD_fresh (d : List (String × JVal)) (s : Store) (f : Nat) :
    ∃ pre, (allocD d s f).1 = pre ++ s ∧ (∀ p ∈ pre, f ≤ p.1) ∧
      f ≤ (allocD d s f).2.2 := by
  match d with
  | [] => exact ⟨[], rfl, by simp, Nat.le_refl f⟩
  | (k, v) :: rest =>
      obtain ⟨pre₁, hv1, hv2, _, hv4⟩ := allocV_fresh v s f
      rcases heq1 : allocV v s f with ⟨s₁, a, f₁⟩
      rw [heq1] at hv1 hv4
      obtain ⟨pre₂, hd1, hd2, hd3⟩ := allocD_fresh rest s₁ f₁
      rcases heq2 : allocD rest s₁ f₁ with ⟨s₂, es, f₂⟩
      rw [heq2] at hd1 hd3
      have hv1x : s₁ = pre₁ ++ s := hv1
      have hv4x : f < f₁ := hv4
      have hd1x : s₂ = pre₂ ++ s₁ := hd1
      have hd3x : f₁ ≤ f₂ := hd3
      have hav : allocD ((k, v) :: rest) s f = (s₂, (k, a) :: es, f₂) := by
        simp only [allocD, heq1, heq2]
      rw [hav]
      refine ⟨pre₂ ++ pre₁, ?_, ?_, ?_⟩
      · show s₂ = pre₂ ++ pre₁ ++ s
        rw [hd1x, hv1x, List.append_assoc]
      · intro p hp
        rcases List.mem_append.mp hp with h | h
        · exact Nat.le_of_lt (Nat.lt_of_lt_of_le hv4x (hd2 p h))
        · exact hv2 p h
      · exact Nat.le_of_lt (Nat.lt_of_lt_of_le hv4x hd3x)

theorem allocL_fresh (l : List JVal) (s : Store) (f : Nat) :
    ∃ pre, (allocL l s f).1 = pre ++ s ∧ (∀ p ∈ pre, f ≤ p.1) ∧
      f ≤ (allocL l s f).2.2 := by
  match l with
  | [] => exact ⟨[], rfl, by simp, Nat.le_refl f⟩
  | v :: rest =>
      obtain ⟨pre₁, hv1, hv2, _, hv4⟩ := allocV_fresh v s f
      rcases heq1 : allocV v s f with ⟨s₁, a, f₁⟩
      rw [heq1] at hv1 hv4
      obtain ⟨pre₂, hd1, hd2, hd3⟩ := allocL_fresh rest s₁ f₁
      rcases heq2 : allocL rest s₁ f₁ with ⟨s₂, rs, f₂⟩
      rw [heq2] at hd1 hd3
      have hv1x : s₁ = pre₁ ++ s := hv1
      have hv4x : f < f₁ := hv4
      have hd1x : s₂ = pre₂ ++ s₁ := hd1
      have hd3x : f₁ ≤ f₂ := hd3
      have hav : allocL (v :: rest) s f = (s₂, a :: rs, f₂) := by
        simp only [allocL, heq1, heq2]
      rw [hav]
      refine ⟨pre₂ ++ pre₁, ?_, ?_, ?_⟩
      · show s₂ = pre₂ ++ pre₁ ++ s
        rw [hd1x, hv1x, List.append_assoc]
      · intro p hp
        rcases List.mem_append.mp hp with h | h
        · exact Nat.le_of_lt (Nat.lt_of_lt_of_le hv4x (hd2 p h))
        · exact hv2 p h
      · exact Nat.le_of_lt (Nat.lt_of_lt_of_le hv4x hd3x)

end

/-- C10: `Node.args` and `Node.conf` hand out `copy.deepcopy` of the stored
configuration (node.py:223-231): the copy's object graph lives entirely at
fresh heap addresses (at or above the frontier `f`), its root included, so
mutating any such address — in particular any part of the returned copy —
leaves every readout of the engine's own data (any root below `f`)
unchanged. -/
theorem args_deepcopy_isolated (s : Store) (f root : Nat) (v : JVal)
    (hb : storeBound s f = true) (hr : root < f) :
    f ≤ (allocV v s f).2.1 ∧
    ∀ (m : Nat) (obj : PObj), f ≤ m →
      ∀ fuel, readV fuel ((m, obj) :: (allocV v s f).1) root = readV fuel s root := by
  obtain ⟨pre, h1, h2, h3, _⟩ := allocV_fresh v s f
  refine ⟨h3, ?_⟩
  intro m obj hm fuel
  rw [h1]
  have : (m, obj) :: (pre ++ s) = ((m, obj) :: pre) ++ s := rfl
  rw [this]
  refine readV_frame fuel ((m, obj) :: pre) s f ?_ hb root hr
  intro p hp
  rcases List.mem_cons.mp hp with h | h
  · subst h; exact hm
  · exact h2 p h

theorem args_deepcopy_isolated_witness :
    storeBound [((0 : Nat), PObj.pscalar (.jstr "x"))] 1 = true ∧
    readV 3 ((5, PObj.pscalar (.jbool true)) ::
        (allocV (.jdict [("k", .jnull)]) [((0 : Nat), PObj.pscalar (.jstr "x"))] 1).1) 0
      = readV 3 [((0 : Nat), PObj.pscalar (.jstr "x"))] 0 :=
  ⟨by decide,
    (args_deepcopy_isolated [((0 : Nat), PObj.pscalar (.jstr "x"))] 1 0
        (.jdict [("k", .jnull)]) (by decide) (by decide)).2 5
      (PObj.pscalar (.jbool true)) (by decide) 3⟩

/-! ## C5: dependency cycles are detected and reported (node.py:294-302, 357-366)

`Flow._setup_flow` (flow.py:111-113) calls `Scope._setup_nodes`
(scope.py:203-205), which runs `Node._setup_node` on every node in
insertion order with an empty branch.  `_setup_node` memoises on the
`_node_conf` attribute (set before the recursion), then for every link
whose source is another node checks `node in branch` and raises
`RecursionError('Loop detected: ...')` before recursing
(node.py:357-366).  The graph of nodes and link sources is abstracted as
`NodeGraph`; `setupF`/`setupDeps` mirror the recursion, with `visited`
playing the role of the `_node_conf` marker and `fuel` bounding the
recursion depth (the Python stack).  `_resolve_base` resolution
(node.py:294-302) walks the base chain with the same branch check,
modelled by `resolveChain`. -/

structure NodeGraph where
  nodes : List String
  deps : String → List String

/-- Link sources of every node lie in the node set. -/
def gWF (g : NodeGraph) : Prop :=
  ∀ n ∈ g.nodes, ∀ d ∈ g.deps n, d ∈ g.nodes

instance (g : NodeGraph) : Decidable (gWF g) :=
  inferInstanceAs (Decidable (∀ n ∈ g.nodes, ∀ d ∈ g.deps n, d ∈ g.nodes))

/-- The `" @ "`-joined crumb trail of node.py:359-360: every occurrence of
the looping node is bracketed. -/
def loopTrail (branch : List String) (node : String) : String :=
  String.intercalate " @ "
    ((branch ++ [node]).map (fun x => if x == node then "[" ++ x ++ "]" else x))

def loopMsg (branch : List String) (node : String) : String :=
  "Loop detected: " ++ loopTrail branch node

mutual

/-- `Node._setup_node(branch)`: memoised on `visited`; otherwise marks the
node visited, extends the branch and sets up the link sources. -/
def setupF (g : NodeGraph) : Nat → List String → List String → String →
    Except PyErr (List String)
  | 0, _, _, _ => .error .modelFuelExhausted
  | fuel + 1, visited, branch, n =>
      if n ∈ visited then .ok visited
      else setupDeps g fuel (visited ++ [n]) (branch ++ [n]) (g.deps n)
termination_by fuel _ _ _ => (fuel, 0)

/-- The `for link in self._links` loop of node.py:357-366: a source already
on the branch raises `RecursionError`, otherwise it is set up recursively. -/
def setupDeps (g : NodeGraph) : Nat → List String → List String → List String →
    Except PyErr (List String)
  | _, visited, _, [] => .ok visited
  | fuel, visited, branch, d :: ds =>
      if d ∈ branch then .error (.recursionError (loopMsg branch d))
      else
        match setupF g fuel visited branch d with
        | .error e => .error e
        | .ok visited' => setupDeps g fuel visited' branch ds
termination_by fuel _ _ ds => (fuel, ds.length + 1)

end

/-- `Scope._setup_nodes` across the whole flow: every node in insertion
order, each with a fresh empty branch, `visited` persisting. -/
def setupAll (g : NodeGraph) : Except PyErr (List String) :=
  g.nodes.foldlM (fun visited n => setupF g (g.nodes.length + 1) visited [] n) []

/-- The `while node:` base-resolution loop of node.py:294-302 over an
abstract base map `bf`. -/
def resolveChain (bf : String → Option String) : Nat → List String → String →
    Except PyErr Unit
  | 0, _, _ => .error .modelFuelExhausted
  | fuel + 1, branch, n =>
      match bf n with
      | none => .ok ()
      | some m =>
          if m ∈ branch ++ [n] then .error (.recursionError (loopMsg (branch ++ [n]) m))
          else resolveChain bf fuel (branch ++ [n]) m

/-- One dependency edge: `d` is the source of a link of `n`. -/
def gStep (g : NodeGraph) (n d : String) : Prop := d ∈ g.deps n

/-- `n` reaches `d` through link edges. -/
def gReach (g : NodeGraph) : String → String → Prop :=
  Relation.ReflTransGen (gStep g)

/-- `n` reaches `d` through at least one link edge. -/
def gReachPlus (g : NodeGraph) : String → String → Prop :=
  Relation.TransGen (gStep g)

/-- `n` reaches `m` along the base chain. -/
def bReach (bf : String → Option String) : String → String → Prop :=
  Relation.ReflTransGen (fun x y => bf x = some y)

/-- The target extracted from a link string by RewriteBaseConf.rewrite_str
(conf.py:115-124): a `@`/`&` sigil not doubled, target up to an optional
`/`, `|` or `:` suffix (the plain intra-scope form; `file#node` targets do
not occur in the concrete configuration below). -/
def parseLinkTarget (s : String) : Option String :=
  match s.data with
  | c :: c2 :: rest =>
      if (c = '@' ∧ c2 ≠ '@') ∨ (c = '&' ∧ c2 ≠ '&') then
        some (String.mk ((c2 :: rest).takeWhile
          (fun ch => !(ch == '/' || ch == '|' || ch == ':'))))
      else none
  | _ => none

/-- Link sources of a node's configuration: depth-1 string values that are
links, resolved inside the same scope (scope.py `_find_node` name form). -/
def linkDeps (scope : String) (conf : List (String × JVal)) : List String :=
  conf.filterMap (fun kv =>
    match kv.2 with
    | .jstr s => (parseLinkTarget s).map (fun t => scope ++ "." ++ t)
    | _ => none)

/-- The configuration of the claim: scope `test` with nodes
`a@dict: \x7ba: "@b"\x7d` and `b@dict: \x7bb: "@a"\x7d`. -/
def cycleConf : List (String × List (String × JVal)) :=
  [("a", [("a", .jstr "@b")]), ("b", [("b", .jstr "@a")])]

def cycleGraph : NodeGraph where
  nodes := cycleConf.map (fun p => "test." ++ p.1)
  deps := fun n =>
    match cycleConf.find? (fun p => ("test." ++ p.1) == n) with
    | some p => linkDeps "test" p.2
    | none => []


/-- The black-set invariant of the DFS: every fully set-up node (visited
and off the branch) has all its link sources fully set up and lies on no
link cycle. -/
def blackInv (g : NodeGraph) (V B : List String) : Prop :=
  ∀ v ∈ V, v ∉ B → (∀ d ∈ g.deps v, d ∈ V ∧ d ∉ B) ∧ ¬ gReachPlus g v v

theorem blackInv_closure {g : NodeGraph} {V B : List String} (hI : blackInv g V B)
    {v m : String} (hv : v ∈ V) (hvb : v ∉ B) (hr : gReach g v m) :
    m ∈ V ∧ m ∉ B := by
  have hr' : Relation.ReflTransGen (gStep g) v m := hr
  clear hr
  induction hr' with
  | refl => exact ⟨hv, hvb⟩
  | tail h₁ h₂ ih =>
      obtain ⟨hc, hcb⟩ := ih
      exact (hI _ hc hcb).1 _ h₂

theorem setupDeps_err_shape (g : NodeGraph) (fuel : Nat)
    (IH : ∀ visited branch n e, setupF g fuel visited branch n = .error e →
      e = .modelFuelExhausted ∨ ∃ br d, e = .recursionError (loopMsg br d)) :
    ∀ ds visited branch e, setupDeps g fuel visited branch ds = .error e →
      e = .modelFuelExhausted ∨ ∃ br d, e = .recursionError (loopMsg br d) := by
  intro ds
  induction ds with
  | nil =>
      intro visited branch e h
      rw [setupDeps] at h
      exact Except.noConfusion h
  | cons d ds ih =>
      intro visited branch e h
      rw [setupDeps] at h
      by_cases hb : d ∈ branch
      · rw [if_pos hb] at h
        injection h with h2
        exact Or.inr ⟨branch, d, h2.symm⟩
      · rw [if_neg hb] at h
        revert h
        rcases hF : setupF g fuel visited branch d with e' | v₁ <;> intro h
        · have h' : (Except.error e' : Except PyErr (List String)) = .error e := h
          injection h' with h2
          subst h2
          exact IH _ _ _ _ hF
        · have h' : setupDeps g fuel v₁ branch ds = .error e := h
          exact ih v₁ branch e h'

theorem setupF_err_shape (g : NodeGraph) :
    ∀ fuel visited branch n e, setupF g fuel visited branch n = .error e →
      e = .modelFuelExhausted ∨ ∃ br d, e = .recursionError (loopMsg br d) := by
  intro fuel
  induction fuel with
  | zero =>
      intro visited branch n e h
      rw [setupF] at h
      injection h with h2
      exact Or.inl h2.symm
  | succ fuel ih =>
      intro visited branch n e h
      rw [setupF] at h
      by_cases hv : n ∈ visited
      · rw [if_pos hv] at h
        exact Except.noConfusion h
      · rw [if_neg hv] at h
        exact setupDeps_err_shape g fuel ih _ _ _ _ h

theorem setupDeps_suff (g : NodeGraph) (hg : gWF g) (fuel : Nat)
    (IH : ∀ visited branch n, visited.Nodup → visited ⊆ g.nodes →
      n ∈ g.nodes → g.nodes.length + 1 ≤ fuel + visited.length →
      setupF g fuel visited branch n ≠ .error .modelFuelExhausted ∧
      ∀ v', setupF g fuel visited branch n = .ok v' →
        visited ⊆ v' ∧ v'.Nodup ∧ v' ⊆ g.nodes) :
    ∀ ds visited branch, visited.Nodup → visited ⊆ g.nodes →
      ds ⊆ g.nodes → g.nodes.length + 1 ≤ fuel + visited.length →
      setupDeps g fuel visited branch ds ≠ .error .modelFuelExhausted ∧
      ∀ v', setupDeps g fuel visited branch ds = .ok v' →
        visited ⊆ v' ∧ v'.Nodup ∧ v' ⊆ g.nodes := by
  intro ds
  induction ds with
  | nil =>
      intro visited branch hnd hsub _ _
      constructor
      · rw [setupDeps]
        exact fun h => Except.noConfusion h
      · intro v' h
        rw [setupDeps] at h
        injection h with h2
        subst h2
        exact ⟨List.Subset.refl _, hnd, hsub⟩
  | cons d ds ih =>
      intro visited branch hnd hsub hds harith
      have hd : d ∈ g.nodes := hds (List.mem_cons_self _ _)
      have hds' : ds ⊆ g.nodes := fun x hx => hds (List.mem_cons_of_mem _ hx)
      rw [setupDeps]
      by_cases hb : d ∈ branch
      · rw [if_pos hb]
        constructor
        · intro h
          injection h with h2
          exact PyErr.noConfusion h2
        · intro v' h
          exact Except.noConfusion h
      · rw [if_neg hb]
        obtain ⟨hne, hok⟩ := IH visited branch d hnd hsub hd harith
        rcases hF : setupF g fuel visited branch d with e' | v₁
        · constructor
          · intro h
            have h' : (Except.error e' : Except PyErr (List String)) = .error .modelFuelExhausted := h
            injection h' with h2
            subst h2
            exact hne hF
          · intro v' h
            exact Except.noConfusion
              (show (Except.error e' : Except PyErr (List String)) = .ok v' from h)
        · obtain ⟨hsub₁, hnd₁, hin₁⟩ := hok v₁ hF
          have harith₁ : g.nodes.length + 1 ≤ fuel + v₁.length := by
            have : visited.length ≤ v₁.length :=
              List.Subperm.length_le (List.Nodup.subperm hnd hsub₁)
            omega
          obtain ⟨ihne, ihok⟩ := ih v₁ branch hnd₁ hin₁ hds' harith₁
          constructor
          · intro h
            exact ihne (show setupDeps g fuel v₁ branch ds = .error .modelFuelExhausted from h)
          · intro v' h
            obtain ⟨hs, hn, hi⟩ := ihok v' (show setupDeps g fuel v₁ branch ds = .ok v' from h)
            exact ⟨List.Subset.trans hsub₁ hs, hn, hi⟩

theorem setupF_suff (g : NodeGraph) (hg : gWF g) :
    ∀ fuel visited branch n, visited.Nodup → visited ⊆ g.nodes →
      n ∈ g.nodes → g.nodes.length + 1 ≤ fuel + visited.length →
      setupF g fuel visited branch n ≠ .error .modelFuelExhausted ∧
      ∀ v', setupF g fuel visited branch n = .ok v' →
        visited ⊆ v' ∧ v'.Nodup ∧ v' ⊆ g.nodes := by
  intro fuel
  induction fuel with
  | zero =>
      intro visited branch n hnd hsub hn harith
      exfalso
      have : visited.length ≤ g.nodes.length :=
        List.Subperm.length_le (List.Nodup.subperm hnd hsub)
      omega
  | succ fuel ihF =>
      intro visited branch n hnd hsub hn harith
      rw [setupF]
      by_cases hv : n ∈ visited
      · rw [if_pos hv]
        constructor
        · exact fun h => Except.noConfusion h
        · intro v' h
          injection h with h2
          subst h2
          exact ⟨List.Subset.refl _, hnd, hsub⟩
      · rw [if_neg hv]
        have hnd₁ : (visited ++ [n]).Nodup := by
          rw [List.nodup_append]
          exact ⟨hnd, List.nodup_singleton n,
            fun a ha hb => hv ((List.mem_singleton.mp hb) ▸ ha)⟩
        have hsub₁ : visited ++ [n] ⊆ g.nodes := by
          intro x hx
          rcases List.mem_append.mp hx with h | h
          · exact hsub h
          · rw [List.mem_singleton.mp h]
            exact hn
        have hdep : g.deps n ⊆ g.nodes := fun x hx => hg n hn x hx
        have harith₁ : g.nodes.length + 1 ≤ fuel + (visited ++ [n]).length := by
          rw [List.length_append, List.length_singleton]
          omega
        obtain ⟨h1, h2⟩ := setupDeps_suff g hg fuel ihF (g.deps n)
          (visited ++ [n]) (branch ++ [n]) hnd₁ hsub₁ hdep harith₁
        refine ⟨h1, ?_⟩
        intro v' h
        obtain ⟨hs, hn', hi⟩ := h2 v' h
        exact ⟨List.Subset.trans (List.subset_append_left _ _) hs, hn', hi⟩

theorem setupDeps_inv (g : NodeGraph) (fuel : Nat)
    (IH : ∀ visited branch n visited', blackInv g visited branch →
      setupF g fuel visited branch n = .ok visited' →
      blackInv g visited' branch ∧ visited ⊆ visited' ∧ n ∈ visited') :
    ∀ ds visited branch visited', blackInv g visited branch →
      setupDeps g fuel visited branch ds = .ok visited' →
      blackInv g visited' branch ∧ visited ⊆ visited' ∧
        ∀ d ∈ ds, d ∈ visited' ∧ d ∉ branch := by
  intro ds
  induction ds with
  | nil =>
      intro visited branch visited' hI h
      rw [setupDeps] at h
      injection h with h2
      subst h2
      exact ⟨hI, List.Subset.refl _, fun d hd => absurd hd (List.not_mem_nil d)⟩
  | cons d ds ih =>
      intro visited branch visited' hI h
      rw [setupDeps] at h
      by_cases hb : d ∈ branch
      · rw [if_pos hb] at h
        exact Except.noConfusion h
      · rw [if_neg hb] at h
        revert h
        rcases hF : setupF g fuel visited branch d with e' | v₁ <;> intro h
        · exact Except.noConfusion
            (show (Except.error e' : Except PyErr (List String)) = .ok visited' from h)
        · have h' : setupDeps g fuel v₁ branch ds = .ok visited' := h
          obtain ⟨hI₁, hs₁, hd₁⟩ := IH visited branch d v₁ hI hF
          obtain ⟨hI₂, hs₂, hall⟩ := ih v₁ branch visited' hI₁ h'
          refine ⟨hI₂, List.Subset.trans hs₁ hs₂, ?_⟩
          intro x hx
          rcases List.mem_cons.mp hx with hxd | hxs
          · subst hxd
            exact ⟨hs₂ hd₁, hb⟩
          · exact hall x hxs

theorem setupF_inv (g : NodeGraph) :
    ∀ fuel visited branch n visited', blackInv g visited branch →
      setupF g fuel visited branch n = .ok visited' →
      blackInv g visited' branch ∧ visited ⊆ visited' ∧ n ∈ visited' := by
  intro fuel
  induction fuel with
  | zero =>
      intro _ _ _ _ _ h
      rw [setupF] at h
      exact Except.noConfusion h
  | succ fuel ihF =>
      intro visited branch n visited' hI h
      rw [setupF] at h
      by_cases hv : n ∈ visited
      · rw [if_pos hv] at h
        injection h with h2
        subst h2
        exact ⟨hI, List.Subset.refl _, hv⟩
      · rw [if_neg hv] at h
        have hI₁ : blackInv g (visited ++ [n]) (branch ++ [n]) := by
          intro v hvmem hvb
          have hvn : v ≠ n := fun he =>
            hvb (by rw [he]; exact List.mem_append_right _ (List.mem_singleton_self n))
          have hvV : v ∈ visited := by
            rcases List.mem_append.mp hvmem with hm | hm
            · exact hm
            · exact absurd (List.mem_singleton.mp hm) hvn
          have hvB : v ∉ branch := fun hbb => hvb (List.mem_append_left _ hbb)
          obtain ⟨hdeps, hacy⟩ := hI v hvV hvB
          refine ⟨?_, hacy⟩
          intro d hd
          obtain ⟨hdV, hdB⟩ := hdeps d hd
          have hdn : d ≠ n := fun he => hv (he ▸ hdV)
          refine ⟨List.mem_append_left _ hdV, ?_⟩
          intro hdb
          rcases List.mem_append.mp hdb with hm | hm
          · exact hdB hm
          · exact hdn (List.mem_singleton.mp hm)
        obtain ⟨hI₂, hs₂, hall⟩ := setupDeps_inv g fuel ihF (g.deps n)
          (visited ++ [n]) (branch ++ [n]) visited' hI₁ h
        have hnv' : n ∈ visited' := hs₂ (List.mem_append_right _ (List.mem_singleton_self n))
        refine ⟨?_, List.Subset.trans (List.subset_append_left _ _) hs₂, hnv'⟩
        intro v hv' hvB
        by_cases hvn : v = n
        · subst hvn
          constructor
          · intro d hd
            obtain ⟨hdv', hdb₁⟩ := hall d hd
            exact ⟨hdv', fun hdb => hdb₁ (List.mem_append_left _ hdb)⟩
          · intro hcyc
            have hcyc' : Relation.TransGen (gStep g) v v := hcyc
            obtain ⟨d, hstep, hrest⟩ := (Relation.TransGen.head'_iff).mp hcyc'
            obtain ⟨hdv', hdb₁⟩ := hall d hstep
            have := (blackInv_closure hI₂ hdv' hdb₁ hrest).2
            exact this (List.mem_append_right _ (List.mem_singleton_self v))
        · have hvB₁ : v ∉ branch ++ [n] := by
            intro hb
            rcases List.mem_append.mp hb with hm | hm
            · exact hvB hm
            · exact hvn (List.mem_singleton.mp hm)
          obtain ⟨hdeps, hacy⟩ := hI₂ v hv' hvB₁
          refine ⟨?_, hacy⟩
          intro d hd
          obtain ⟨h1, h2⟩ := hdeps d hd
          exact ⟨h1, fun hdb => h2 (List.mem_append_left _ hdb)⟩

theorem setupAll_fold (g : NodeGraph) (hg : gWF g) :
    ∀ ns visited, ns ⊆ g.nodes → visited.Nodup → visited ⊆ g.nodes →
      blackInv g visited [] →
      (∀ e, ns.foldlM (fun v n => setupF g (g.nodes.length + 1) v [] n) visited
          = .error e → ∃ br d, e = .recursionError (loopMsg br d)) ∧
      (∀ final, ns.foldlM (fun v n => setupF g (g.nodes.length + 1) v [] n) visited
          = .ok final →
        blackInv g final [] ∧ visited ⊆ final ∧ ∀ n ∈ ns, n ∈ final) := by
  intro ns
  induction ns with
  | nil =>
      intro visited _ hnd hsub hI
      constructor
      · intro e h
        exact Except.noConfusion
          (show (Except.ok visited : Except PyErr (List String)) = .error e from h)
      · intro final h
        have h' : (Except.ok visited : Except PyErr (List String)) = .ok final := h
        injection h' with h2
        subst h2
        exact ⟨hI, List.Subset.refl _, fun n hn => absurd hn (List.not_mem_nil n)⟩
  | cons n ns ih =>
      intro visited hns hnd hsub hI
      have hn : n ∈ g.nodes := hns (List.mem_cons_self _ _)
      have hns' : ns ⊆ g.nodes := fun x hx => hns (List.mem_cons_of_mem _ hx)
      have harith : g.nodes.length + 1 ≤ (g.nodes.length + 1) + visited.length := by omega
      obtain ⟨hne, hok⟩ := setupF_suff g hg (g.nodes.length + 1) visited [] n hnd hsub hn harith
      constructor
      · intro e h
        rw [List.foldlM_cons] at h
        revert h
        rcases hF : setupF g (g.nodes.length + 1) visited [] n with e' | v₁ <;> intro h
        · have h' : (Except.error e' : Except PyErr (List String)) = .error e := h
          injection h' with h2
          subst h2
          rcases setupF_err_shape g _ _ _ _ _ hF with h0 | h0
          · exact absurd (h0 ▸ hF) hne
          · exact h0
        · obtain ⟨hs₁, hnd₁, hsub₁⟩ := hok v₁ hF
          obtain ⟨hI₁, _, _⟩ := setupF_inv g (g.nodes.length + 1) visited [] n v₁ hI hF
          have h' : ns.foldlM (fun v n => setupF g (g.nodes.length + 1) v [] n) v₁
              = .error e := h
          exact (ih v₁ hns' hnd₁ hsub₁ hI₁).1 e h'
      · intro final h
        rw [List.foldlM_cons] at h
        revert h
        rcases hF : setupF g (g.nodes.length + 1) visited [] n with e' | v₁ <;> intro h
        · exact Except.noConfusion
            (show (Except.error e' : Except PyErr (List String)) = .ok final from h)
        · obtain ⟨hs₁, hnd₁, hsub₁⟩ := hok v₁ hF
          obtain ⟨hI₁, _, hn₁⟩ := setupF_inv g (g.nodes.length + 1) visited [] n v₁ hI hF
          have h' : ns.foldlM (fun v n => setupF g (g.nodes.length + 1) v [] n) v₁
              = .ok final := h
          obtain ⟨hIf, hsf, hallf⟩ := (ih v₁ hns' hnd₁ hsub₁ hI₁).2 final h'
          refine ⟨hIf, List.Subset.trans hs₁ hsf, ?_⟩
          intro x hx
          rcases List.mem_cons.mp hx with hx | hx
          · subst hx
            exact hsf hn₁
          · exact hallf x hx

theorem resolveChain_err_shape (bf : String → Option String) :
    ∀ fuel branch n e, resolveChain bf fuel branch n = .error e →
      e = .modelFuelExhausted ∨ ∃ br d, e = .recursionError (loopMsg br d) := by
  intro fuel
  induction fuel with
  | zero =>
      intro branch n e h
      rw [resolveChain] at h
      injection h with h2
      exact Or.inl h2.symm
  | succ fuel ih =>
      intro branch n e h
      rw [resolveChain] at h
      revert h
      rcases hbf : bf n with _ | m <;> intro h
      · exact Except.noConfusion
          (show (Except.ok () : Except PyErr Unit) = .error e from h)
      · have h' : (if m ∈ branch ++ [n] then
              (.error (.recursionError (loopMsg (branch ++ [n]) m)) : Except PyErr Unit)
            else resolveChain bf fuel (branch ++ [n]) m) = .error e := h
        by_cases hm : m ∈ branch ++ [n]
        · rw [if_pos hm] at h'
          injection h' with h2
          exact Or.inr ⟨branch ++ [n], m, h2.symm⟩
        · rw [if_neg hm] at h'
          exact ih _ _ _ h'

theorem resolveChain_no_ok (bf : String → Option String) :
    ∀ fuel branch n, (∀ m, bReach bf n m → bf m ≠ none) →
      ∀ u, resolveChain bf fuel branch n ≠ .ok u := by
  intro fuel
  induction fuel with
  | zero =>
      intro branch n _ u h
      rw [resolveChain] at h
      exact Except.noConfusion h
  | succ fuel ih =>
      intro branch n hs u h
      rw [resolveChain] at h
      revert h
      rcases hbf : bf n with _ | m <;> intro h
      · exact hs n Relation.ReflTransGen.refl hbf
      · have h' : (if m ∈ branch ++ [n] then
              (.error (.recursionError (loopMsg (branch ++ [n]) m)) : Except PyErr Unit)
            else resolveChain bf fuel (branch ++ [n]) m) = .ok u := h
        by_cases hm : m ∈ branch ++ [n]
        · rw [if_pos hm] at h'
          exact Except.noConfusion h'
        · rw [if_neg hm] at h'
          have hs' : ∀ p, bReach bf m p → bf p ≠ none := fun p hp =>
            hs p (Relation.ReflTransGen.trans (Relation.ReflTransGen.single hbf) hp)
          exact ih _ _ hs' u h'

theorem resolveChain_suff (bf : String → Option String) (ns : List String)
    (hcl : ∀ m ∈ ns, ∀ y, bf m = some y → y ∈ ns) :
    ∀ fuel branch n, branch.Nodup → branch ⊆ ns → n ∈ ns → n ∉ branch →
      ns.length + 1 ≤ fuel + branch.length →
      resolveChain bf fuel branch n ≠ .error .modelFuelExhausted := by
  intro fuel
  induction fuel with
  | zero =>
      intro branch n hnd hsub _ _ harith _
      have : branch.length ≤ ns.length :=
        List.Subperm.length_le (List.Nodup.subperm hnd hsub)
      omega
  | succ fuel ih =>
      intro branch n hnd hsub hn hnb harith h
      rw [resolveChain] at h
      revert h
      rcases hbf : bf n with _ | m <;> intro h
      · exact Except.noConfusion h
      · have h' : (if m ∈ branch ++ [n] then
              (.error (.recursionError (loopMsg (branch ++ [n]) m)) : Except PyErr Unit)
            else resolveChain bf fuel (branch ++ [n]) m) = .error .modelFuelExhausted := h
        by_cases hm : m ∈ branch ++ [n]
        · rw [if_pos hm] at h'
          injection h' with h2
          exact PyErr.noConfusion h2
        · rw [if_neg hm] at h'
          have hnd₁ : (branch ++ [n]).Nodup := by
            rw [List.nodup_append]
            exact ⟨hnd, List.nodup_singleton n,
              fun a ha hb => hnb ((List.mem_singleton.mp hb) ▸ ha)⟩
          have hsub₁ : branch ++ [n] ⊆ ns := by
            intro x hx
            rcases List.mem_append.mp hx with hm' | hm'
            · exact hsub hm'
            · rw [List.mem_singleton.mp hm']
              exact hn
          refine ih (branch ++ [n]) m hnd₁ hsub₁ (hcl n hn m hbf) hm ?_ h'
          rw [List.length_append, List.length_singleton]
          omega

theorem bf_right_unique (bf : String → Option String) :
    ∀ x y z, bf x = some y → bf x = some z → y = z := by
  intro x y z h1 h2
  rw [h1] at h2
  exact Option.some.inj h2

/-- In the functional base graph, a node on a cycle is returned to by every
node it reaches. -/
theorem bf_cycle_return (bf : String → Option String) {c m : String}
    (hcyc : Relation.TransGen (fun x y => bf x = some y) c c)
    (hcm : Relation.ReflTransGen (fun x y => bf x = some y) c m) :
    Relation.ReflTransGen (fun x y => bf x = some y) m c := by
  induction hcm with
  | refl => exact Relation.ReflTransGen.refl
  | tail h₁ h₂ ih =>
      rcases Relation.ReflTransGen.cases_head ih with heq | ⟨q, hq, hqc⟩
      · subst heq
        obtain ⟨d, hcd, hdc⟩ := (Relation.TransGen.head'_iff).mp hcyc
        rw [bf_right_unique bf _ _ _ h₂ hcd]
        exact hdc
      · rw [bf_right_unique bf _ _ _ h₂ hq]
        exact hqc

/-- Every node reachable from `n` has a base when a cycle is reachable
from `n`. -/
theorem bf_cycle_succ (bf : String → Option String) {n c : String}
    (hnc : Relation.ReflTransGen (fun x y => bf x = some y) n c)
    (hcyc : Relation.TransGen (fun x y => bf x = some y) c c) :
    ∀ m, bReach bf n m → bf m ≠ none := by
  intro m hm hnone
  have hm' : Relation.ReflTransGen (fun x y => bf x = some y) n m := hm
  have htot := Relation.ReflTransGen.total_of_right_unique
    (fun a b c h1 h2 => bf_right_unique bf a b c h1 h2) hnc hm'
  have hmc : Relation.ReflTransGen (fun x y => bf x = some y) m c := by
    rcases htot with h | h
    · exact bf_cycle_return bf hcyc h
    · exact h
  rcases Relation.ReflTransGen.cases_head hmc with heq | ⟨q, hq, _⟩
  · subst heq
    obtain ⟨d, hcd, _⟩ := (Relation.TransGen.head'_iff).mp hcyc
    rw [hnone] at hcd
    exact Option.noConfusion hcd
  · rw [hnone] at hq
    exact Option.noConfusion hq

/-- C5: for the configuration `test: a@dict: a: "@b"; b@dict: b: "@a"` the
setup of the flow stops with exactly
`RecursionError('Loop detected: [test.a] @ test.b @ [test.a]')`; and in
general, whenever the link graph has a reachable cycle, or the base chain
of a node cycles, setup terminates with a `RecursionError` whose message
is `'Loop detected: '` followed by the annotated crumb trail
(node.py:357-366 and node.py:294-302) — it never runs out of fuel. -/
theorem cycle_detection_recursion_error :
    (setupAll cycleGraph
        = .error (.recursionError "Loop detected: [test.a] @ test.b @ [test.a]")) ∧
    (∀ g : NodeGraph, gWF g → (∃ c ∈ g.nodes, gReachPlus g c c) →
      ∃ t, setupAll g = .error (.recursionError ("Loop detected: " ++ t))) ∧
    (∀ (bf : String → Option String) (ns : List String) (n : String),
      n ∈ ns → (∀ m ∈ ns, ∀ y, bf m = some y → y ∈ ns) →
      (∃ c, bReach bf n c ∧ Relation.TransGen (fun x y => bf x = some y) c c) →
      ∃ t, resolveChain bf (ns.length + 1) [] n
          = .error (.recursionError ("Loop detected: " ++ t))) := by
  refine ⟨?_, ?_, ?_⟩
  · simp +decide [setupAll, setupF, setupDeps, cycleGraph, cycleConf, linkDeps,
      parseLinkTarget, loopMsg, loopTrail]
  · intro g hg hex
    obtain ⟨c, hc, hcyc⟩ := hex
    have hInil : blackInv g [] [] := fun v hv => absurd hv (List.not_mem_nil v)
    obtain ⟨herr, hokk⟩ := setupAll_fold g hg g.nodes [] (List.Subset.refl _)
      List.nodup_nil (fun x hx => absurd hx (List.not_mem_nil x)) hInil
    rcases hres : setupAll g with e | final
    · obtain ⟨br, d, he⟩ := herr e hres
      refine ⟨loopTrail br d, ?_⟩
      rw [he]
      rfl
    · exfalso
      obtain ⟨hIf, _, hall⟩ := hokk final hres
      exact (hIf c (hall c hc) (List.not_mem_nil c)).2 hcyc
  · intro bf ns n hn hcl hex
    obtain ⟨c, hnc, hcyc⟩ := hex
    have hsucc : ∀ m, bReach bf n m → bf m ≠ none := bf_cycle_succ bf hnc hcyc
    rcases hres : resolveChain bf (ns.length + 1) [] n with e | u
    · rcases resolveChain_err_shape bf _ _ _ _ hres with h0 | h0
      · exact absurd (h0 ▸ hres)
          (resolveChain_suff bf ns hcl (ns.length + 1) [] n List.nodup_nil
            (fun x hx => absurd hx (List.not_mem_nil x)) hn (List.not_mem_nil n)
            (by omega))
      · obtain ⟨br, d, he⟩ := h0
        refine ⟨loopTrail br d, ?_⟩
        rw [he]
        rfl
    · exact absurd hres (resolveChain_no_ok bf (ns.length + 1) [] n hsucc u)

theorem cycle_detection_recursion_error_witness :
    gWF cycleGraph ∧ (∃ c ∈ cycleGraph.nodes, gReachPlus cycleGraph c c) ∧
    ∃ t, setupAll cycleGraph
        = .error (.recursionError ("Loop detected: " ++ t)) := by
  have hwf : gWF cycleGraph := by decide
  have hstep1 : gStep cycleGraph "test.a" "test.b" :=
    (by decide : "test.b" ∈ cycleGraph.deps "test.a")
  have hstep2 : gStep cycleGraph "test.b" "test.a" :=
    (by decide : "test.a" ∈ cycleGraph.deps "test.b")
  have hcyc : ∃ c ∈ cycleGraph.nodes, gReachPlus cycleGraph c c :=
    ⟨"test.a", by decide, Relation.TransGen.head hstep1 (Relation.TransGen.single hstep2)⟩
  exact ⟨hwf, hcyc, cycle_detection_recursion_error.2.1 cycleGraph hwf hcyc⟩
